import Mathlib

/-!
Sum / minimum of the multiples of 13: sequential, mutex and atomic reducers.

A shallow embedding of `lab2.cpp`.

* `int` values are integers reduced by `to_int` (32-bit two's complement),
  `long long` values by `to_long_long`, `size_t` values by `to_size_t`.
* The two output parameters `sum` and `min_multiple_of_13` are passed and
  returned as one `Result` record.
* An out-of-bounds `arr[i]` has no defined value: the functions that index the
  vector return `Option`, and `none` stands for "no defined result".
* The worker threads of the two parallel reducers touch the shared aggregate
  only in their merge step; a run is described by the order in which the
  workers perform that step (`order`), and for the atomic reducer also by the
  spurious failures of `compare_exchange_weak` (`spur`) and a bound on the
  number of iterations of the retry loop (`fuel`).
* The retry loop on the shared minimum is also described step by step
  (`min_step`, `min_run`): the `load` and each compare-exchange of each worker
  are atomic steps, interleaved by a schedule.
* `with_atomic_interleaved` is the atomic reducer with the merge phases of its
  workers interleaved step by step (`atomic_step`, `atomic_run`): the
  `fetch_add`, the `load` and each compare-exchange of each worker are atomic
  steps on the current values of the shared atomics, in the order a schedule
  gives; a compare-exchange then also fails because another worker has changed
  the shared minimum since it was observed.
-/

namespace Lab2

/-! ## Machine integers -/

/-- The largest `int`. -/
def INT_MAX : Int := 2147483647

/-- The smallest `int`. -/
def INT_MIN : Int := -2147483648

/-- The largest `long long`. -/
def LLONG_MAX : Int := 9223372036854775807

/-- The smallest `long long`. -/
def LLONG_MIN : Int := -9223372036854775808

/-- Conversion of an integer value to `int` (32-bit two's complement). -/
def to_int (x : Int) : Int := (x + 2147483648) % 4294967296 - 2147483648

/-- Conversion of an integer value to `long long` (64-bit two's complement). -/
def to_long_long (x : Int) : Int :=
  (x + 9223372036854775808) % 18446744073709551616 - 9223372036854775808

/-- Conversion of an integer value to `size_t` (64-bit unsigned). -/
def to_size_t (x : Int) : Int := x % 18446744073709551616

/-- The aggregate: the output parameters `sum` (a `long long`) and
`min_multiple_of_13` (an `int`). -/
structure Result where
  sum : Int
  min_multiple_of_13 : Int
deriving DecidableEq

/-! ## The sequential reducer -/

/-- The body of the scanning loop (lines 30-35, 49-54, 87-92): an element with
`num % 13 == 0` (truncating remainder) is added to the sum and lowers the
minimum when it is smaller. -/
def scan_step (acc : Result) (num : Int) : Result :=
  if Int.tmod num 13 = 0 then
    { sum := to_long_long (acc.sum + num),
      min_multiple_of_13 :=
        if num < acc.min_multiple_of_13 then num else acc.min_multiple_of_13 }
  else acc

/-- Lines 25-37: `out` holds the values of the two output parameters before the
call; they are overwritten by `0` and `INT_MAX` before the scan. -/
def without_parallelization (arr : List Int) (out : Result) : Result :=
  let out1 : Result := { out with sum := 0 }
  let out2 : Result := { out1 with min_multiple_of_13 := INT_MAX }
  arr.foldl scan_step out2

/-! ## The partition loop (lines 64-71 and 101-108) -/

/-- The `int chunk_size = arr.size() / num_threads;` of lines 65 and 102:
`num_threads` is converted to `size_t`, the quotient is converted to `int`.
(For a zero divisor the division has no result; the reducers check that case
before they use `chunk_size`.) -/
def chunk_size (n : Nat) (num_threads : Int) : Int :=
  to_int ((n : Int) / to_size_t num_threads)

/-- The `int start = i * chunk_size;` of lines 68 and 105. -/
def chunk_start (n : Nat) (num_threads : Int) (i : Int) : Int :=
  to_int (i * chunk_size n num_threads)

/-- The `int end = (i == num_threads - 1) ? arr.size() : start + chunk_size;`
of lines 69 and 106. -/
def chunk_end (n : Nat) (num_threads : Int) (i : Int) : Int :=
  if i = num_threads - 1 then to_int (n : Int)
  else to_int (chunk_start n num_threads i + chunk_size n num_threads)

/-- The ranges handed to the workers by the loop of lines 67-71 of
`with_mutex`, in spawning order. -/
def with_mutex_partitions (n : Nat) (num_threads : Int) : List (Int × Int) :=
  (List.range num_threads.toNat).map
    (fun (i : Nat) =>
      (chunk_start n num_threads (i : Int), chunk_end n num_threads (i : Int)))

/-- The ranges handed to the workers by the loop of lines 104-108 of
`with_atomic`, in spawning order. -/
def with_atomic_partitions (n : Nat) (num_threads : Int) : List (Int × Int) :=
  (List.range num_threads.toNat).map
    (fun (i : Nat) =>
      (chunk_start n num_threads (i : Int), chunk_end n num_threads (i : Int)))

/-! ## The local phase of `process_chunk` -/

/-- The access `arr[i]` with an `int` index: a negative index converts to a
huge `size_t`, so only `0 ≤ i < arr.size()` has a value. -/
def at_index (arr : List Int) (i : Int) : Option Int :=
  if 0 ≤ i then arr[i.toNat]? else none

/-- The loop `for (int i = start; i < end; ++i)` of lines 48-55 and 86-93, with
`k` iterations left, the index at `i` and the local pair at `acc`. -/
def chunk_loop (arr : List Int) : Nat → Int → Result → Option Result
  | 0, _, acc => some acc
  | k + 1, i, acc =>
    match at_index arr i with
    | none => none
    | some x => chunk_loop arr k (i + 1) (scan_step acc x)

/-- Lines 45-55 and 83-93: the local sum and local minimum of a worker. The
loop runs `end - start` times when `start < end` and not at all otherwise. -/
def process_chunk_local (arr : List Int) (start end_ : Int) : Option Result :=
  chunk_loop arr (end_ - start).toNat start
    { sum := 0, min_multiple_of_13 := INT_MAX }

/-! ## The mutex reducer -/

/-- Lines 57-61: the merge of a local pair into the shared pair, performed
while the lock is held. -/
def mutex_merge (shared loc : Result) : Result :=
  { sum := to_long_long (shared.sum + loc.sum),
    min_multiple_of_13 :=
      if loc.min_multiple_of_13 < shared.min_multiple_of_13 then loc.min_multiple_of_13
      else shared.min_multiple_of_13 }

/-- One worker of `with_mutex` (lines 44-62) as a transition of the shared
pair. -/
def with_mutex_process_chunk (arr : List Int) (shared : Result) (start end_ : Int) :
    Option Result :=
  (process_chunk_local arr start end_).map (mutex_merge shared)

/-- Lines 39-76. `order` lists the workers in the order in which they take the
lock; the run of the program spawns the workers `0 .. num_threads - 1`, so
`order` is a permutation of those. The division of line 65 has no result
when its divisor, `num_threads` converted to `size_t`, is zero. -/
def with_mutex (arr : List Int) (out : Result) (num_threads : Int) (order : List Nat) :
    Option Result :=
  let out1 : Result := { out with sum := 0 }
  let out2 : Result := { out1 with min_multiple_of_13 := INT_MAX }
  if to_size_t num_threads = 0 then none
  else order.foldlM
    (fun (shared : Result) (i : Nat) =>
      with_mutex_process_chunk arr shared
        (chunk_start arr.length num_threads (i : Int))
        (chunk_end arr.length num_threads (i : Int)))
    out2

/-! ## The atomic reducer -/

/-- The call `min_multiple_of_13.compare_exchange_weak(current_min, local_min)`:
returns the success flag, the new shared value and the new `current_min`. It
succeeds when the shared value equals `current_min` and the call does not fail
spuriously; a failed call loads the shared value into `current_min`. -/
def compare_exchange_weak (shared current_min local_min : Int) (spurious : Bool) :
    Bool × Int × Int :=
  if shared = current_min ∧ spurious = false then (true, local_min, current_min)
  else (false, shared, shared)

/-- The retry loop of lines 97-98, run without interference of other workers.
`spur` tells for each call of `compare_exchange_weak` whether it fails
spuriously (no more spurious failures once the list is used up); `none` when
the loop has not ended after `fuel` iterations. Returns the shared minimum. -/
def cas_loop (local_min : Int) : Nat → List Bool → Int → Int → Option Int
  | 0, _, _, _ => none
  | fuel + 1, spur, shared, current_min =>
    if local_min < current_min then
      let r := compare_exchange_weak shared current_min local_min (spur.headD false)
      if r.1 then some r.2.1 else cas_loop local_min fuel spur.tail r.2.1 r.2.2
    else some shared

/-- Lines 95-98: the merge of a local pair into the shared pair by
`fetch_add`, `load` and the retry loop. -/
def atomic_merge (fuel : Nat) (spur : List Bool) (shared loc : Result) : Option Result :=
  let sum1 := to_long_long (shared.sum + loc.sum)
  let current_min := shared.min_multiple_of_13
  (cas_loop loc.min_multiple_of_13 fuel spur shared.min_multiple_of_13 current_min).map
    (fun m => { sum := sum1, min_multiple_of_13 := m })

/-- One worker of `with_atomic` (lines 82-99) as a transition of the shared
pair. -/
def with_atomic_process_chunk (arr : List Int) (fuel : Nat) (spur : List Bool) (shared : Result)
    (start end_ : Int) : Option Result :=
  (process_chunk_local arr start end_).bind (atomic_merge fuel spur shared)

/-- Lines 78-113. `order` lists the workers in the order in which they merge,
`spur i` are the spurious failures met by worker `i`. The division of line
102 has no result when its divisor is zero. -/
def with_atomic (arr : List Int) (out : Result) (num_threads : Int) (order : List Nat)
    (fuel : Nat) (spur : Nat → List Bool) : Option Result :=
  let out1 : Result := { out with sum := 0 }
  let out2 : Result := { out1 with min_multiple_of_13 := INT_MAX }
  if to_size_t num_threads = 0 then none
  else order.foldlM
    (fun (shared : Result) (i : Nat) =>
      with_atomic_process_chunk arr fuel (spur i) shared
        (chunk_start arr.length num_threads (i : Int))
        (chunk_end arr.length num_threads (i : Int)))
    out2

/-! ## What the reducers are compared with -/

/-- The mathematical sum of the elements divisible by 13. -/
def sum_of_multiples (arr : List Int) : Int :=
  (arr.filter (fun x => decide ((13 : Int) ∣ x))).sum

/-- A pair is well typed: `sum` is a `long long` and `min_multiple_of_13` an
`int`. -/
def Result.WellTyped (r : Result) : Prop :=
  LLONG_MIN ≤ r.sum ∧ r.sum ≤ LLONG_MAX ∧
    INT_MIN ≤ r.min_multiple_of_13 ∧ r.min_multiple_of_13 ≤ INT_MAX

/-- Every element of the vector is an `int`. -/
def AllInt (arr : List Int) : Prop := ∀ x ∈ arr, INT_MIN ≤ x ∧ x ≤ INT_MAX

/-- The pair that every reducer and every worker starts from. -/
def start_pair : Result := { sum := 0, min_multiple_of_13 := INT_MAX }

/-- A shared pair as the reducers hold it: the sum is a `long long` value and
the minimum is at most `INT_MAX`. -/
def Result.Normal (r : Result) : Prop :=
  to_long_long r.sum = r.sum ∧ r.min_multiple_of_13 ≤ INT_MAX

/-- The local pair of worker `i`: `process_chunk` up to line 55 (line 93), at
the range the partition loop computes for `i`. -/
def worker_local (arr : List Int) (num_threads : Int) (i : Nat) : Option Result :=
  process_chunk_local arr (chunk_start arr.length num_threads (i : Int))
    (chunk_end arr.length num_threads (i : Int))

/-- The cut points of the partition of `n` indices among `t` workers: worker
`i` gets the indices from `cut n t i` up to `cut n t (i + 1)`. -/
def cut (n t k : Nat) : Nat := if k = t then n else k * (n / t)

/-- The elements of `arr` with index in `[a, b)`. -/
def slice (arr : List Int) (a b : Nat) : List Int := (arr.drop a).take (b - a)

/-- The partition formula of the specification at length `n` and worker count
`T`: `chunk_size` is `n / T`; a worker `i < T - 1` gets `[i·chunk, (i+1)·chunk)`,
of length `chunk`; the last worker gets `[(T-1)·chunk, n)`, of length
`chunk + n mod T`; both parallel reducers compute the same ranges. -/
def PartitionFormula (n : Nat) (T : Int) : Prop :=
  chunk_size n T = (n : Int) / T ∧
    (∀ i : Nat, (i : Int) < T - 1 →
      chunk_start n T (i : Int) = (i : Int) * ((n : Int) / T) ∧
        chunk_end n T (i : Int) = ((i : Int) + 1) * ((n : Int) / T) ∧
        chunk_end n T (i : Int) - chunk_start n T (i : Int) = (n : Int) / T) ∧
    chunk_start n T (T - 1) = (T - 1) * ((n : Int) / T) ∧
    chunk_end n T (T - 1) = (n : Int) ∧
    chunk_end n T (T - 1) - chunk_start n T (T - 1) = (n : Int) / T + (n : Int) % T ∧
    with_mutex_partitions n T = with_atomic_partitions n T

/-! ## The retry loop of the atomic reducer, step by step -/

/-- Where a worker of `with_atomic` stands in lines 96-98: before the `load`
of line 96, at the test of the loop with its value of `current_min`, or past
the loop. -/
inductive Phase where
  | before_load : Phase
  | in_loop (current_min : Int) : Phase
  | exited : Phase
deriving DecidableEq

/-- The function `f` with the value at `w` replaced by `x`. -/
def set_at {α : Type} (f : Nat → α) (w : Nat) (x : α) : Nat → α :=
  fun v => if v = w then x else f v

/-- The shared atomic `min_multiple_of_13` and the phase of every worker,
together with counters that record the history: the successful
compare-exchanges (`updates`, and per worker `successes`), the failed
compare-exchange calls of each worker (`retries`: each sends the loop around
once more), and those of them that were spurious (`spurious`: the shared value
was equal to `current_min`). -/
structure MinState where
  shared_min : Int
  phase : Nat → Phase
  updates : Nat
  successes : Nat → Nat
  retries : Nat → Nat
  spurious : Nat → Nat

/-- One atomic step of worker `w`, whose local minimum is `local_min w`: the
`load` of line 96, or one evaluation of the loop condition of lines 97-98 (the
test `local_min < current_min` and, when it holds, one call of
`compare_exchange_weak`, which fails spuriously when `spur` is set). -/
def min_step (local_min : Nat → Int) (s : MinState) (w : Nat) (spur : Bool) : MinState :=
  match s.phase w with
  | Phase.before_load =>
    { s with phase := set_at s.phase w (Phase.in_loop s.shared_min) }
  | Phase.in_loop current_min =>
    if local_min w < current_min then
      let r := compare_exchange_weak s.shared_min current_min (local_min w) spur
      if r.1 then
        { s with
          shared_min := r.2.1
          phase := set_at s.phase w Phase.exited
          updates := s.updates + 1
          successes := set_at s.successes w (s.successes w + 1) }
      else
        { s with
          phase := set_at s.phase w (Phase.in_loop r.2.2)
          retries := set_at s.retries w (s.retries w + 1)
          spurious :=
            if s.shared_min = current_min then set_at s.spurious w (s.spurious w + 1)
            else s.spurious }
    else { s with phase := set_at s.phase w Phase.exited }
  | Phase.exited => s

/-- A run: the steps of the schedule, each naming the worker that moves and
whether its compare-exchange fails spuriously. -/
def min_run (local_min : Nat → Int) (s : MinState) (sched : List (Nat × Bool)) : MinState :=
  sched.foldl (fun st p => min_step local_min st p.1 p.2) s

/-- The state in which the workers are spawned: the shared minimum at `m0`
(`INT_MAX` after line 80), every worker before its `load`. -/
def min_init (m0 : Int) : MinState :=
  { shared_min := m0
    phase := fun _ => Phase.before_load
    updates := 0
    successes := fun _ => 0
    retries := fun _ => 0
    spurious := fun _ => 0 }

/-- The number of steps of the schedule taken by worker `w`. -/
def steps_of (w : Nat) (sched : List (Nat × Bool)) : Nat :=
  sched.countP (fun p => decide (p.1 = w))

/-- The number of steps of worker `w` at which the schedule lets its
compare-exchange fail spuriously. -/
def spurious_steps_of (w : Nat) (sched : List (Nat × Bool)) : Nat :=
  sched.countP (fun p => decide (p.1 = w) && p.2)

/-- The sum of a counter over the workers `0 .. T - 1`. -/
def total (T : Nat) (f : Nat → Nat) : Nat := ((List.range T).map f).sum

/-- A schedule in which four workers with local minima 52, 39, 26, 13 all
load `INT_MAX`, and then succeed one after the other, largest first, while the
others fail; no compare-exchange fails spuriously. -/
def racing_schedule : List (Nat × Bool) :=
  [(0, false), (1, false), (2, false), (3, false),
   (0, false), (1, false), (2, false), (3, false),
   (1, false), (2, false), (3, false),
   (2, false), (3, false),
   (3, false)]

/-- The local minima of the four workers of `with_atomic` on `[52, 39, 26, 13]`
with four threads. -/
def racing_minima (i : Nat) : Int := 52 - 13 * (i : Int)

/-- What every step keeps true of the shared minimum: a worker in the loop
holds a `current_min` that the shared minimum has not risen above, and the
shared minimum is at most the local minimum of every worker past the loop. -/
def MinSafe (local_min : Nat → Int) (s : MinState) : Prop :=
  (∀ w cur, s.phase w = Phase.in_loop cur → s.shared_min ≤ cur) ∧
    ∀ w, s.phase w = Phase.exited → s.shared_min ≤ local_min w

/-- What every step keeps true of the counters, for the workers
`0 .. T - 1`: the failed calls of a worker that were not spurious number at most
the successful updates of the other workers; a worker in the loop whose
`current_min` is no longer the shared value has one such update still to meet;
a worker updates at most once, and only when it leaves the loop. -/
def MinCount (T : Nat) (s : MinState) : Prop :=
  (∀ w, s.retries w + s.successes w ≤ s.updates + s.spurious w) ∧
    (∀ w cur, s.phase w = Phase.in_loop cur →
      cur = s.shared_min ∨ s.retries w + 1 ≤ s.updates + s.spurious w) ∧
    (∀ w, s.phase w ≠ Phase.exited → s.successes w = 0) ∧
    (∀ w, s.successes w ≤ 1) ∧
    s.updates = total T s.successes

/-- How the counters of a state relate to the schedule that led to it: a
worker before its `load` has not moved, a worker in the loop has moved once for
the `load` and once for every failed call, and the spurious failures of a worker
are among the steps at which the schedule allows one. -/
def MinSteps (s : MinState) (sched : List (Nat × Bool)) : Prop :=
  (∀ w, s.phase w = Phase.before_load → steps_of w sched = 0 ∧ s.retries w = 0) ∧
    (∀ w cur, s.phase w = Phase.in_loop cur → steps_of w sched = 1 + s.retries w) ∧
    ∀ w, s.spurious w ≤ spurious_steps_of w sched

/-! ## The atomic reducer, step by step -/

/-- The shared atomics of `with_atomic` while the workers merge: the shared
`sum`, which workers have performed their `fetch_add` of line 95, and the
shared minimum with the phase of every worker in lines 96-98. -/
structure AtomicState where
  shared_sum : Int
  added : Nat → Bool
  min : MinState

/-- One atomic step of worker `w` in lines 95-98, `locals w` being its local
pair: the `fetch_add` of line 95 when it has not performed it yet, otherwise
its next step on the shared minimum (the `load`, or a test of the loop with one
call of `compare_exchange_weak`). -/
def atomic_step (locals : Nat → Result) (s : AtomicState) (w : Nat) (spur : Bool) :
    AtomicState :=
  if s.added w = true then
    { s with min := min_step (fun i => (locals i).min_multiple_of_13) s.min w spur }
  else
    { s with
      shared_sum := to_long_long (s.shared_sum + (locals w).sum)
      added := set_at s.added w true }

/-- A run of the merge phases: the atomic steps of the workers, interleaved as
the schedule says. -/
def atomic_run (locals : Nat → Result) (s : AtomicState) (sched : List (Nat × Bool)) :
    AtomicState :=
  sched.foldl (fun st p => atomic_step locals st p.1 p.2) s

/-- The shared atomics after lines 79-80, when the workers are spawned. -/
def atomic_init (out2 : Result) : AtomicState :=
  { shared_sum := out2.sum
    added := fun _ => false
    min := min_init out2.min_multiple_of_13 }

/-- Lines 78-113 with the merge phases of the workers interleaved step by
step. The local phase of a worker reads the vector only, so the local pairs do
not depend on the interleaving; `sched` names, step by step, the spawned worker
that performs its next atomic operation on the shared atomics (and whether its
compare-exchange fails spuriously). The joins of lines 110-112 return once
every worker has performed its `fetch_add` and left the retry loop: there is a
result only then. -/
def with_atomic_interleaved (arr : List Int) (out : Result) (num_threads : Int)
    (sched : List (Nat × Bool)) : Option Result :=
  let out1 : Result := { out with sum := 0 }
  let out2 : Result := { out1 with min_multiple_of_13 := INT_MAX }
  if to_size_t num_threads = 0 then none
  else if (List.range num_threads.toNat).all
      (fun i => (worker_local arr num_threads i).isSome) then
    let fin := atomic_run (fun i => (worker_local arr num_threads i).getD out2)
      (atomic_init out2) sched
    if (List.range num_threads.toNat).all
        (fun i => fin.added i && decide (fin.min.phase i = Phase.exited)) then
      some { sum := fin.shared_sum, min_multiple_of_13 := fin.min.shared_min }
    else none
  else none

/-- A schedule for two workers in which both load the shared minimum before
either exchanges it, worker 1 exchanges first and worker 0 then fails, retries
and succeeds; each worker's last step finds it past the loop. -/
def contended_schedule : List (Nat × Bool) :=
  [(0, false), (1, false), (0, false), (1, false),
   (1, false), (0, false), (0, false), (1, false), (0, false)]

/-- The sum of an integer quantity over the workers `0 .. T - 1`. -/
def itotal (T : Nat) (f : Nat → Int) : Int := ((List.range T).map f).sum

/-! ## Machine arithmetic -/

theorem to_long_long_of_range {x : Int} (h1 : LLONG_MIN ≤ x) (h2 : x ≤ LLONG_MAX) :
    to_long_long x = x := by
  unfold LLONG_MIN at h1
  unfold LLONG_MAX at h2
  unfold to_long_long
  omega

theorem to_long_long_range (x : Int) :
    LLONG_MIN ≤ to_long_long x ∧ to_long_long x ≤ LLONG_MAX := by
  unfold LLONG_MIN LLONG_MAX to_long_long
  omega

theorem to_long_long_idem (x : Int) : to_long_long (to_long_long x) = to_long_long x :=
  to_long_long_of_range (to_long_long_range x).1 (to_long_long_range x).2

theorem to_long_long_add_left (a b : Int) :
    to_long_long (to_long_long a + b) = to_long_long (a + b) := by
  unfold to_long_long
  omega

theorem to_long_long_add_right (a b : Int) :
    to_long_long (a + to_long_long b) = to_long_long (a + b) := by
  unfold to_long_long
  omega

theorem to_int_of_range {x : Int} (h1 : INT_MIN ≤ x) (h2 : x ≤ INT_MAX) : to_int x = x := by
  unfold INT_MIN at h1
  unfold INT_MAX at h2
  unfold to_int
  omega

theorem to_size_t_of_range {x : Int} (h1 : 0 ≤ x) (h2 : x ≤ INT_MAX) : to_size_t x = x := by
  unfold INT_MAX at h2
  unfold to_size_t
  omega

theorem tmod_13_iff (x : Int) : Int.tmod x 13 = 0 ↔ (13 : Int) ∣ x :=
  Int.dvd_iff_tmod_eq_zero.symm

/-! ## The scan as a fold, and the merge -/

theorem start_pair_normal : start_pair.Normal := by
  unfold Result.Normal start_pair to_long_long
  simp

theorem without_parallelization_eq (arr : List Int) (out : Result) :
    without_parallelization arr out = arr.foldl scan_step start_pair := rfl

theorem scan_step_merge (s r : Result) (x : Int) :
    scan_step (mutex_merge s r) x = mutex_merge s (scan_step r x) := by
  unfold scan_step
  by_cases hx : Int.tmod x 13 = 0
  · simp only [hx, if_true, mutex_merge, to_long_long_add_left, to_long_long_add_right,
      add_assoc, Result.mk.injEq, true_and]
    split_ifs <;> omega
  · simp only [hx, if_false]

theorem merge_start_pair {s : Result} (h : s.Normal) : mutex_merge s start_pair = s := by
  obtain ⟨h1, h2⟩ := h
  cases s with
  | mk a m =>
    simp only [mutex_merge, start_pair, add_zero, Result.mk.injEq] at *
    refine ⟨h1, ?_⟩
    rw [if_neg (by omega)]

theorem merge_normal (s r : Result) (h : s.min_multiple_of_13 ≤ INT_MAX) :
    (mutex_merge s r).Normal := by
  refine ⟨to_long_long_idem _, ?_⟩
  simp only [mutex_merge]
  split_ifs <;> omega

theorem foldl_scan_merge (xs : List Int) {s : Result} (h : s.Normal) :
    xs.foldl scan_step s = mutex_merge s (xs.foldl scan_step start_pair) := by
  induction xs using List.reverseRecOn with
  | nil => simp [merge_start_pair h]
  | append_singleton xs x ih =>
    simp only [List.foldl_append, List.foldl_cons, List.foldl_nil, ih, scan_step_merge]

theorem foldl_scan_normal (xs : List Int) {s : Result} (h : s.Normal) :
    (xs.foldl scan_step s).Normal := by
  rw [foldl_scan_merge xs h]
  exact merge_normal _ _ h.2

theorem mutex_merge_right_comm (s a b : Result) :
    mutex_merge (mutex_merge s a) b = mutex_merge (mutex_merge s b) a := by
  simp only [mutex_merge, to_long_long_add_left, Result.mk.injEq]
  constructor
  · congr 1
    omega
  · split_ifs <;> omega

/-- Merging the local pairs of consecutive parts, in the order of the parts,
is the scan of their concatenation. -/
theorem foldl_merge_parts (parts : List (List Int)) {s : Result} (h : s.Normal) :
    (parts.map (fun p => p.foldl scan_step start_pair)).foldl mutex_merge s =
      parts.flatten.foldl scan_step s := by
  induction parts generalizing s with
  | nil => simp
  | cons p ps ih =>
    simp only [List.map_cons, List.foldl_cons, List.flatten_cons, List.foldl_append]
    rw [← foldl_scan_merge p h]
    exact ih (foldl_scan_normal p h)

/-! ## The local phase -/

theorem at_index_natCast (arr : List Int) (i : Nat) : at_index arr (i : Int) = arr[i]? := by
  simp [at_index]

theorem chunk_loop_eq (arr : List Int) (k i : Nat) (acc : Result) (h : i + k ≤ arr.length) :
    chunk_loop arr k (i : Int) acc = some (((arr.drop i).take k).foldl scan_step acc) := by
  induction k generalizing i acc with
  | zero => simp [chunk_loop]
  | succ k ih =>
    have hi : i < arr.length := by omega
    have hstep : ((i : Int) + 1) = ((i + 1 : Nat) : Int) := by push_cast; rfl
    rw [chunk_loop, at_index_natCast, List.getElem?_eq_getElem hi]
    simp only
    rw [hstep, ih (i + 1) _ (by omega), List.drop_eq_getElem_cons hi]
    simp only [List.take_succ_cons, List.foldl_cons]

theorem process_chunk_local_eq (arr : List Int) (a b : Nat) (hab : a ≤ b)
    (hb : b ≤ arr.length) :
    process_chunk_local arr (a : Int) (b : Int) =
      some ((slice arr a b).foldl scan_step start_pair) := by
  unfold process_chunk_local slice
  have h : ((b : Int) - (a : Int)).toNat = b - a := by omega
  rw [h, chunk_loop_eq arr (b - a) a _ (by omega)]
  rfl

theorem process_chunk_local_empty (arr : List Int) (a b : Int) (hab : b ≤ a) :
    process_chunk_local arr a b = some start_pair := by
  unfold process_chunk_local
  have h : (b - a).toNat = 0 := by omega
  rw [h]
  rfl

/-! ## The partition -/

theorem cut_zero (n t : Nat) (ht : 1 ≤ t) : cut n t 0 = 0 := by
  unfold cut
  rw [if_neg (by omega)]
  simp

theorem cut_last (n t : Nat) : cut n t t = n := by
  simp [cut]

theorem cut_le (n t k : Nat) (hk : k ≤ t) : cut n t k ≤ n := by
  unfold cut
  split_ifs
  · exact le_refl n
  · calc k * (n / t) ≤ t * (n / t) := Nat.mul_le_mul_right _ hk
      _ ≤ n := Nat.mul_div_le n t

theorem cut_mono (n t k : Nat) (hk : k < t) : cut n t k ≤ cut n t (k + 1) := by
  unfold cut
  rw [if_neg (by omega)]
  split_ifs
  · calc k * (n / t) ≤ t * (n / t) := Nat.mul_le_mul_right _ (by omega)
      _ ≤ n := Nat.mul_div_le n t
  · exact Nat.mul_le_mul_right _ (by omega)

theorem chunk_size_eq (n : Nat) (T : Int) (hn : (n : Int) ≤ INT_MAX) (h1 : 1 ≤ T)
    (h2 : T ≤ INT_MAX) : chunk_size n T = ((n / T.toNat : Nat) : Int) := by
  unfold chunk_size
  rw [to_size_t_of_range (by omega) h2]
  have hT : T = ((T.toNat : Nat) : Int) := by omega
  have hq : (n : Int) / T = ((n / T.toNat : Nat) : Int) := by
    conv_lhs => rw [hT]
    exact (Int.ofNat_ediv n T.toNat).symm
  rw [hq]
  have hle : n / T.toNat ≤ n := Nat.div_le_self n T.toNat
  generalize n / T.toNat = q at hle ⊢
  apply to_int_of_range
  · unfold INT_MIN; omega
  · omega

theorem chunk_start_eq (n : Nat) (T : Int) (hn : (n : Int) ≤ INT_MAX) (h1 : 1 ≤ T)
    (h2 : T ≤ INT_MAX) (i : Nat) (hi : i < T.toNat) :
    chunk_start n T (i : Int) = ((cut n T.toNat i : Nat) : Int) := by
  unfold chunk_start
  rw [chunk_size_eq n T hn h1 h2]
  have hc : cut n T.toNat i = i * (n / T.toNat) := by
    unfold cut
    rw [if_neg (by omega)]
  have hle := cut_le n T.toNat i (by omega)
  rw [hc] at hle ⊢
  have : (i : Int) * ((n / T.toNat : Nat) : Int) = ((i * (n / T.toNat) : Nat) : Int) := by
    push_cast; rfl
  rw [this]
  generalize i * (n / T.toNat) = m at hle ⊢
  apply to_int_of_range
  · unfold INT_MIN; omega
  · omega

theorem chunk_end_eq (n : Nat) (T : Int) (hn : (n : Int) ≤ INT_MAX) (h1 : 1 ≤ T)
    (h2 : T ≤ INT_MAX) (i : Nat) (hi : i < T.toNat) :
    chunk_end n T (i : Int) = ((cut n T.toNat (i + 1) : Nat) : Int) := by
  unfold chunk_end
  by_cases hlast : (i : Int) = T - 1
  · rw [if_pos hlast]
    have : i + 1 = T.toNat := by omega
    rw [this, cut_last]
    apply to_int_of_range
    · unfold INT_MIN; omega
    · exact hn
  · rw [if_neg hlast, chunk_start_eq n T hn h1 h2 i hi, chunk_size_eq n T hn h1 h2]
    have hlt : i + 1 < T.toNat := by omega
    have hle := cut_le n T.toNat (i + 1) (by omega)
    have hc : cut n T.toNat i = i * (n / T.toNat) := by
      unfold cut
      rw [if_neg (by omega)]
    have hc1 : cut n T.toNat (i + 1) = (i + 1) * (n / T.toNat) := by
      unfold cut
      rw [if_neg (by omega)]
    have hsum : ((cut n T.toNat i : Nat) : Int) + ((n / T.toNat : Nat) : Int) =
        ((cut n T.toNat (i + 1) : Nat) : Int) := by
      rw [hc, hc1]
      push_cast
      ring
    rw [hsum]
    apply to_int_of_range
    · unfold INT_MIN; omega
    · omega

/-- Consecutive slices between monotone cut points concatenate to a prefix. -/
theorem flatten_slices (arr : List Int) (b : Nat → Nat) (k : Nat)
    (hmono : ∀ i, i < k → b i ≤ b (i + 1)) (h0 : b 0 = 0) :
    ((List.range k).map (fun i => slice arr (b i) (b (i + 1)))).flatten = arr.take (b k) := by
  induction k with
  | zero => simp [h0]
  | succ k ih =>
    rw [List.range_succ, List.map_append, List.flatten_append,
      ih (fun i hi => hmono i (by omega))]
    have hk := hmono k (by omega)
    have hsplit : b (k + 1) = b k + (b (k + 1) - b k) := by omega
    conv_rhs => rw [hsplit, List.take_add]
    simp [slice]

theorem worker_local_eq (arr : List Int) (T : Int) (hn : (arr.length : Int) ≤ INT_MAX)
    (h1 : 1 ≤ T) (h2 : T ≤ INT_MAX) (i : Nat) (hi : i < T.toNat) :
    worker_local arr T i =
      some ((slice arr (cut arr.length T.toNat i) (cut arr.length T.toNat (i + 1))).foldl
        scan_step start_pair) := by
  unfold worker_local
  rw [chunk_start_eq _ T hn h1 h2 i hi, chunk_end_eq _ T hn h1 h2 i hi]
  exact process_chunk_local_eq arr _ _ (cut_mono _ _ _ hi) (cut_le _ _ _ (by omega))

/-! ## Runs of the mutex reducer -/

theorem with_mutex_eq (arr : List Int) (out : Result) (T : Int) (order : List Nat) :
    with_mutex arr out T order =
      if to_size_t T = 0 then none
      else order.foldlM (fun shared i => (worker_local arr T i).map (mutex_merge shared))
        start_pair := by
  rfl

theorem to_size_t_ne_zero {T : Int} (h1 : 1 ≤ T) (h2 : T ≤ INT_MAX) : to_size_t T ≠ 0 := by
  rw [to_size_t_of_range (by omega) h2]
  omega

theorem with_mutex_eq_of_ne (arr : List Int) (out : Result) (T : Int) (order : List Nat)
    (h : to_size_t T ≠ 0) :
    with_mutex arr out T order =
      order.foldlM (fun shared i => (worker_local arr T i).map (mutex_merge shared))
        start_pair := by
  rw [with_mutex_eq, if_neg h]

/-- Two merge orders that are permutations of each other end in the same
shared pair, from any shared pair. -/
theorem foldlM_merge_perm (loc : Nat → Option Result) {o1 o2 : List Nat} (h : o1.Perm o2)
    (s : Result) :
    o1.foldlM (fun shared i => (loc i).map (mutex_merge shared)) s =
      o2.foldlM (fun shared i => (loc i).map (mutex_merge shared)) s := by
  induction h generalizing s with
  | nil => rfl
  | cons x _ ih =>
    simp only [List.foldlM_cons]
    cases loc x with
    | none => rfl
    | some a => simpa using ih _
  | swap x y l =>
    simp only [List.foldlM_cons]
    cases loc x with
    | none => cases loc y <;> rfl
    | some a =>
      cases loc y with
      | none => rfl
      | some b => simp [mutex_merge_right_comm s b a]
  | trans _ _ ih1 ih2 => exact (ih1 s).trans (ih2 s)

/-- When every worker of the run has a local pair, the run merges them. -/
theorem foldlM_merge_some (loc : Nat → Option Result) (L : Nat → Result) (order : List Nat)
    (h : ∀ i ∈ order, loc i = some (L i)) (s : Result) :
    order.foldlM (fun shared i => (loc i).map (mutex_merge shared)) s =
      some ((order.map L).foldl mutex_merge s) := by
  induction order generalizing s with
  | nil => rfl
  | cons x xs ih =>
    simp only [List.foldlM_cons, List.map_cons, List.foldl_cons]
    rw [h x (List.mem_cons_self x xs)]
    simpa using ih (fun i hi => h i (List.mem_cons_of_mem x hi)) _

/-- The mutex reducer, with the workers merging in spawning order, returns the
scan of the whole vector. -/
theorem with_mutex_perm (arr : List Int) (out out1 : Result) (T : Int) {o1 o2 : List Nat}
    (h : o1.Perm o2) : with_mutex arr out T o1 = with_mutex arr out1 T o2 := by
  rw [with_mutex_eq, with_mutex_eq]
  split_ifs
  · rfl
  · exact foldlM_merge_perm _ h _

theorem with_mutex_in_order (arr : List Int) (out : Result) (T : Int)
    (hn : (arr.length : Int) ≤ INT_MAX) (h1 : 1 ≤ T) (h2 : T ≤ INT_MAX) :
    with_mutex arr out T (List.range T.toNat) = some (arr.foldl scan_step start_pair) := by
  rw [with_mutex_eq_of_ne arr out T _ (to_size_t_ne_zero h1 h2)]
  rw [foldlM_merge_some (worker_local arr T)
    (fun i => (slice arr (cut arr.length T.toNat i) (cut arr.length T.toNat (i + 1))).foldl
      scan_step start_pair) (List.range T.toNat)
    (fun i hi => worker_local_eq arr T hn h1 h2 i (List.mem_range.mp hi))]
  have hmap : (List.range T.toNat).map (fun i =>
      (slice arr (cut arr.length T.toNat i) (cut arr.length T.toNat (i + 1))).foldl
        scan_step start_pair) =
      ((List.range T.toNat).map (fun i =>
        slice arr (cut arr.length T.toNat i) (cut arr.length T.toNat (i + 1)))).map
        (fun p => p.foldl scan_step start_pair) := by
    rw [List.map_map]
    rfl
  rw [hmap, foldl_merge_parts _ start_pair_normal,
    flatten_slices arr (cut arr.length T.toNat) T.toNat
      (fun i hi => cut_mono _ _ _ hi) (cut_zero _ _ (by omega)),
    cut_last, List.take_of_length_le (le_refl _)]

/-- The mutex reducer returns the sequential result for every merge order. -/
theorem with_mutex_correct (arr : List Int) (out : Result) (T : Int) (order : List Nat)
    (hn : (arr.length : Int) ≤ INT_MAX) (h1 : 1 ≤ T) (h2 : T ≤ INT_MAX)
    (hperm : order.Perm (List.range T.toNat)) :
    with_mutex arr out T order = some (without_parallelization arr out) := by
  rw [without_parallelization_eq, ← with_mutex_in_order arr out T hn h1 h2]
  exact with_mutex_perm arr out out T hperm

/-! ## Runs of the atomic reducer -/

theorem cas_loop_eq (local_min : Int) (fuel : Nat) (spur : List Bool) (shared : Int)
    (h : spur.length < fuel) :
    cas_loop local_min fuel spur shared shared =
      some (if local_min < shared then local_min else shared) := by
  induction fuel generalizing spur with
  | zero => omega
  | succ fuel ih =>
    unfold cas_loop
    by_cases hlt : local_min < shared
    · rw [if_pos hlt, if_pos hlt]
      cases spur with
      | nil => simp [compare_exchange_weak]
      | cons b rest =>
        cases b with
        | false => simp [compare_exchange_weak]
        | true =>
          have hr : rest.length < fuel := by
            simp only [List.length_cons] at h
            omega
          simp [compare_exchange_weak, ih rest hr, hlt]
    · rw [if_neg hlt, if_neg hlt]

theorem cas_loop_some (local_min : Int) (fuel : Nat) (spur : List Bool) (shared m : Int)
    (h : cas_loop local_min fuel spur shared shared = some m) :
    m = if local_min < shared then local_min else shared := by
  induction fuel generalizing spur with
  | zero => simp [cas_loop] at h
  | succ fuel ih =>
    unfold cas_loop at h
    by_cases hlt : local_min < shared
    · rw [if_pos hlt] at h
      rw [if_pos hlt]
      cases spur with
      | nil => simpa [compare_exchange_weak] using h.symm
      | cons b rest =>
        cases b with
        | false => simpa [compare_exchange_weak] using h.symm
        | true =>
          simp only [compare_exchange_weak, List.headD_cons, List.tail_cons] at h
          have := ih rest (by simpa using h)
          rw [if_pos hlt] at this
          exact this
    · rw [if_neg hlt] at h
      rw [if_neg hlt]
      exact (Option.some.inj h).symm

theorem atomic_merge_eq (fuel : Nat) (spur : List Bool) (shared loc : Result)
    (h : spur.length < fuel) :
    atomic_merge fuel spur shared loc = some (mutex_merge shared loc) := by
  unfold atomic_merge
  simp only [cas_loop_eq _ _ _ _ h, Option.map_some', mutex_merge]

theorem atomic_merge_some (fuel : Nat) (spur : List Bool) (shared loc r : Result)
    (h : atomic_merge fuel spur shared loc = some r) : r = mutex_merge shared loc := by
  unfold atomic_merge at h
  simp only [Option.map_eq_some'] at h
  obtain ⟨m, hm, hr⟩ := h
  rw [← hr, cas_loop_some _ _ _ _ _ hm]
  rfl

theorem with_atomic_eq (arr : List Int) (out : Result) (T : Int) (order : List Nat)
    (fuel : Nat) (spur : Nat → List Bool) :
    with_atomic arr out T order fuel spur =
      if to_size_t T = 0 then none
      else order.foldlM
        (fun shared i => (worker_local arr T i).bind (atomic_merge fuel (spur i) shared))
        start_pair := by
  rfl

/-- With enough iterations allowed for the retry loops, a run of the atomic
reducer ends as the run of the mutex reducer with the same merge order. -/
theorem foldlM_atomic_eq (loc : Nat → Option Result) (fuel : Nat) (spur : Nat → List Bool)
    (order : List Nat) (h : ∀ i ∈ order, (spur i).length < fuel) (s : Result) :
    order.foldlM (fun shared i => (loc i).bind (atomic_merge fuel (spur i) shared)) s =
      order.foldlM (fun shared i => (loc i).map (mutex_merge shared)) s := by
  induction order generalizing s with
  | nil => rfl
  | cons x xs ih =>
    simp only [List.foldlM_cons]
    cases loc x with
    | none => rfl
    | some a =>
      simp only [Option.some_bind, Option.map_some', Option.bind_eq_bind,
        atomic_merge_eq fuel (spur x) s a (h x (List.mem_cons_self x xs))]
      exact ih (fun i hi => h i (List.mem_cons_of_mem x hi)) _

/-- A run of the atomic reducer that ends, ends as the run of the mutex
reducer with the same merge order. -/
theorem foldlM_atomic_some (loc : Nat → Option Result) (fuel : Nat) (spur : Nat → List Bool)
    (order : List Nat) (s r : Result)
    (h : order.foldlM (fun shared i => (loc i).bind (atomic_merge fuel (spur i) shared)) s =
      some r) :
    order.foldlM (fun shared i => (loc i).map (mutex_merge shared)) s = some r := by
  induction order generalizing s with
  | nil => exact h
  | cons x xs ih =>
    simp only [List.foldlM_cons] at h ⊢
    cases hx : loc x with
    | none => simp [hx] at h
    | some a =>
      rw [hx] at h
      simp only [Option.some_bind, Option.bind_eq_bind] at h
      cases hm : atomic_merge fuel (spur x) s a with
      | none => simp [hm] at h
      | some s1 =>
        rw [hm] at h
        have h1 := atomic_merge_some _ _ _ _ _ hm
        simp only [Option.map_some', Option.some_bind, Option.bind_eq_bind]
        rw [← h1]
        exact ih s1 (by simpa using h)

theorem with_atomic_eq_with_mutex (arr : List Int) (out : Result) (T : Int) (order : List Nat)
    (fuel : Nat) (spur : Nat → List Bool) (h : ∀ i ∈ order, (spur i).length < fuel) :
    with_atomic arr out T order fuel spur = with_mutex arr out T order := by
  rw [with_atomic_eq, with_mutex_eq]
  split_ifs
  · rfl
  · exact foldlM_atomic_eq _ fuel spur order h _

theorem with_atomic_some (arr : List Int) (out : Result) (T : Int) (order : List Nat)
    (fuel : Nat) (spur : Nat → List Bool) (r : Result)
    (h : with_atomic arr out T order fuel spur = some r) :
    with_mutex arr out T order = some r := by
  rw [with_atomic_eq] at h
  rw [with_mutex_eq]
  split_ifs at h ⊢
  exact foldlM_atomic_some _ fuel spur order _ r h

theorem with_atomic_correct (arr : List Int) (out : Result) (T : Int) (order : List Nat)
    (fuel : Nat) (spur : Nat → List Bool)
    (hn : (arr.length : Int) ≤ INT_MAX) (h1 : 1 ≤ T) (h2 : T ≤ INT_MAX)
    (hperm : order.Perm (List.range T.toNat)) (hfuel : ∀ i, (spur i).length < fuel) :
    with_atomic arr out T order fuel spur = some (without_parallelization arr out) := by
  rw [with_atomic_eq_with_mutex arr out T order fuel spur (fun i _ => hfuel i)]
  exact with_mutex_correct arr out T order hn h1 h2 hperm

/-! ## What the scan computes -/

theorem sum_of_multiples_cons (x : Int) (xs : List Int) :
    sum_of_multiples (x :: xs) =
      if (13 : Int) ∣ x then x + sum_of_multiples xs else sum_of_multiples xs := by
  unfold sum_of_multiples
  by_cases h : (13 : Int) ∣ x
  · simp [List.filter_cons, h]
  · simp [List.filter_cons, h]

theorem foldl_scan_sum (xs : List Int) (s : Result) (h : to_long_long s.sum = s.sum) :
    (xs.foldl scan_step s).sum = to_long_long (s.sum + sum_of_multiples xs) := by
  induction xs generalizing s with
  | nil => simp [sum_of_multiples, h]
  | cons x xs ih =>
    rw [List.foldl_cons, sum_of_multiples_cons]
    by_cases hx : (13 : Int) ∣ x
    · have hs : scan_step s x = { sum := to_long_long (s.sum + x), min_multiple_of_13 :=
          if x < s.min_multiple_of_13 then x else s.min_multiple_of_13 } := by
        unfold scan_step
        rw [if_pos ((tmod_13_iff x).mpr hx)]
      rw [hs, ih _ (to_long_long_idem _), if_pos hx]
      simp only [to_long_long_add_left, add_assoc]
    · have hs : scan_step s x = s := by
        unfold scan_step
        rw [if_neg (fun h13 => hx ((tmod_13_iff x).mp h13))]
      rw [hs, ih _ h, if_neg hx]

theorem sum_of_multiples_bound (xs : List Int) (h : AllInt xs) :
    -((xs.length : Int) * 2147483648) ≤ sum_of_multiples xs ∧
      sum_of_multiples xs ≤ (xs.length : Int) * 2147483648 := by
  induction xs with
  | nil => simp [sum_of_multiples]
  | cons x xs ih =>
    have hx := h x (List.mem_cons_self x xs)
    have ih1 := ih (fun y hy => h y (List.mem_cons_of_mem x hy))
    unfold INT_MIN INT_MAX at hx
    rw [sum_of_multiples_cons]
    simp only [List.length_cons]
    push_cast
    split_ifs <;> constructor <;> omega

theorem foldl_scan_min (xs : List Int) (s : Result) :
    (xs.foldl scan_step s).min_multiple_of_13 ≤ s.min_multiple_of_13 ∧
      (∀ y ∈ xs, (13 : Int) ∣ y → (xs.foldl scan_step s).min_multiple_of_13 ≤ y) ∧
      ((xs.foldl scan_step s).min_multiple_of_13 = s.min_multiple_of_13 ∨
        ((xs.foldl scan_step s).min_multiple_of_13 ∈ xs ∧
          (13 : Int) ∣ (xs.foldl scan_step s).min_multiple_of_13)) := by
  induction xs generalizing s with
  | nil => simp
  | cons x xs ih =>
    rw [List.foldl_cons]
    obtain ⟨ih1, ih2, ih3⟩ := ih (scan_step s x)
    by_cases hx : (13 : Int) ∣ x
    · have hs : (scan_step s x).min_multiple_of_13 =
          if x < s.min_multiple_of_13 then x else s.min_multiple_of_13 := by
        unfold scan_step
        rw [if_pos ((tmod_13_iff x).mpr hx)]
      rw [hs] at ih1 ih3
      refine ⟨?_, ?_, ?_⟩
      · split_ifs at ih1 <;> omega
      · intro y hy h13
        rcases List.mem_cons.mp hy with rfl | hy
        · split_ifs at ih1 <;> omega
        · exact ih2 y hy h13
      · rcases ih3 with h | ⟨hm, hd⟩
        · by_cases hlt : x < s.min_multiple_of_13
          · rw [if_pos hlt] at h
            right
            rw [h]
            exact ⟨List.mem_cons_self x xs, hx⟩
          · rw [if_neg hlt] at h
            left
            exact h
        · right
          exact ⟨List.mem_cons_of_mem x hm, hd⟩
    · have hs : scan_step s x = s := by
        unfold scan_step
        rw [if_neg (fun h13 => hx ((tmod_13_iff x).mp h13))]
      rw [hs] at ih1 ih2 ih3 ⊢
      refine ⟨ih1, ?_, ?_⟩
      · intro y hy h13
        rcases List.mem_cons.mp hy with rfl | hy
        · exact absurd h13 hx
        · exact ih2 y hy h13
      · rcases ih3 with h | ⟨hm, hd⟩
        · left
          exact h
        · right
          exact ⟨List.mem_cons_of_mem x hm, hd⟩

theorem int_max_not_multiple : ¬ (13 : Int) ∣ INT_MAX := by
  unfold INT_MAX
  decide

/-! ## Coverage by the partition -/

/-- Among consecutive ranges between monotone cut points, an index lies in
exactly one range when it is between the first and the last cut point, and in
none otherwise. -/
theorem countP_cuts (b : Nat → Nat) (k : Nat) (hmono : ∀ i, i < k → b i ≤ b (i + 1))
    (j : Int) :
    ((List.range k).map (fun (i : Nat) => (((b i : Nat) : Int), ((b (i + 1) : Nat) : Int)))).countP
        (fun p => decide (p.1 ≤ j ∧ j < p.2)) =
      if ((b 0 : Nat) : Int) ≤ j ∧ j < ((b k : Nat) : Int) then 1 else 0 := by
  induction k with
  | zero =>
    have : ¬ (((b 0 : Nat) : Int) ≤ j ∧ j < ((b 0 : Nat) : Int)) := by omega
    simp [this]
  | succ k ih =>
    have hk := hmono k (by omega)
    have ih1 := ih (fun i hi => hmono i (by omega))
    have hchain : b 0 ≤ b k := by
      clear ih ih1 hk
      induction k with
      | zero => exact le_refl _
      | succ m ihm =>
        exact le_trans (ihm (fun i hi => hmono i (by omega))) (hmono m (by omega))
    rw [List.range_succ, List.map_append, List.countP_append, ih1]
    simp only [List.map_cons, List.map_nil, List.countP_cons, List.countP_nil, zero_add]
    by_cases h1 : ((b 0 : Nat) : Int) ≤ j ∧ j < ((b k : Nat) : Int)
    · have h2 : ¬ (((b k : Nat) : Int) ≤ j ∧ j < ((b (k + 1) : Nat) : Int)) := by omega
      have h3 : ((b 0 : Nat) : Int) ≤ j ∧ j < ((b (k + 1) : Nat) : Int) := by omega
      simp [h1, h2, h3]
    · by_cases h2 : ((b k : Nat) : Int) ≤ j ∧ j < ((b (k + 1) : Nat) : Int)
      · have h3 : ((b 0 : Nat) : Int) ≤ j ∧ j < ((b (k + 1) : Nat) : Int) := by omega
        simp [h1, h2, h3]
      · have h3 : ¬ (((b 0 : Nat) : Int) ≤ j ∧ j < ((b (k + 1) : Nat) : Int)) := by omega
        simp [h1, h2, h3]

theorem with_mutex_partitions_eq (n : Nat) (T : Int) (hn : (n : Int) ≤ INT_MAX) (h1 : 1 ≤ T)
    (h2 : T ≤ INT_MAX) :
    with_mutex_partitions n T =
      (List.range T.toNat).map
        (fun (i : Nat) => (((cut n T.toNat i : Nat) : Int), ((cut n T.toNat (i + 1) : Nat) : Int))) := by
  unfold with_mutex_partitions
  apply List.map_congr_left
  intro i hi
  rw [chunk_start_eq n T hn h1 h2 i (List.mem_range.mp hi),
    chunk_end_eq n T hn h1 h2 i (List.mem_range.mp hi)]

theorem with_atomic_partitions_eq (n : Nat) (T : Int) :
    with_atomic_partitions n T = with_mutex_partitions n T := rfl

/-! ## Vectors without a multiple of 13, and vectors beyond `INT_MAX` elements -/

theorem foldl_scan_no_multiple (xs : List Int) (s : Result)
    (h : ∀ x ∈ xs, ¬ (13 : Int) ∣ x) : xs.foldl scan_step s = s := by
  induction xs with
  | nil => rfl
  | cons x xs ih =>
    have hx := h x (List.mem_cons_self x xs)
    have hs : scan_step s x = s := by
      unfold scan_step
      rw [if_neg (fun h13 => hx ((tmod_13_iff x).mp h13))]
    rw [List.foldl_cons, hs]
    exact ih (fun y hy => h y (List.mem_cons_of_mem x hy))

theorem no_multiple_of_range (xs : List Int) (h : ∀ x ∈ xs, 1 ≤ x ∧ x ≤ 12) :
    ∀ x ∈ xs, ¬ (13 : Int) ∣ x := by
  intro x hx hd
  have := h x hx
  omega

theorem chunk_loop_negative (arr : List Int) (k : Nat) (i : Int) (acc : Result)
    (hi : i < 0) : chunk_loop arr (k + 1) i acc = none := by
  have h : at_index arr i = none := by
    unfold at_index
    rw [if_neg (by omega)]
  rw [chunk_loop, h]

/-- With `2^32` elements and two workers, `chunk_size` is `-2^31` and the
second worker starts at index `-2^31`: its first access is out of bounds. -/
theorem with_mutex_two_pow_32 (arr : List Int) (out : Result)
    (h : arr.length = 4294967296) : with_mutex arr out 2 [0, 1] = none := by
  have e0 : chunk_start 4294967296 2 ((0 : Nat) : Int) = 0 := by decide
  have e1 : chunk_end 4294967296 2 ((0 : Nat) : Int) = -2147483648 := by decide
  have e2 : chunk_start 4294967296 2 ((1 : Nat) : Int) = -2147483648 := by decide
  have e3 : chunk_end 4294967296 2 ((1 : Nat) : Int) = 0 := by decide
  have w0 : worker_local arr 2 0 = some start_pair := by
    unfold worker_local
    rw [h, e0, e1]
    exact process_chunk_local_empty arr _ _ (by decide)
  have w1 : worker_local arr 2 1 = none := by
    unfold worker_local
    rw [h, e2, e3]
    unfold process_chunk_local
    have hk : ((0 : Int) - (-2147483648)).toNat = 2147483647 + 1 := by decide
    rw [hk]
    exact chunk_loop_negative arr _ _ _ (by decide)
  rw [with_mutex_eq_of_ne arr out 2 _ (by decide)]
  simp only [List.foldlM_cons, w0, w1]
  rfl

/-! ## More workers than elements -/

theorem chunk_size_oversubscribed (n : Nat) (T : Int) (hT : (n : Int) < T)
    (h2 : T ≤ INT_MAX) : chunk_size n T = 0 := by
  rw [chunk_size_eq n T (by omega) (by omega) h2, Nat.div_eq_of_lt (by omega)]
  rfl

theorem chunk_start_oversubscribed (n : Nat) (T : Int) (hT : (n : Int) < T)
    (h2 : T ≤ INT_MAX) (i : Int) : chunk_start n T i = 0 := by
  unfold chunk_start
  rw [chunk_size_oversubscribed n T hT h2, mul_zero]
  rfl

theorem chunk_end_oversubscribed (n : Nat) (T : Int) (hT : (n : Int) < T)
    (h2 : T ≤ INT_MAX) (i : Int) (hi : i ≠ T - 1) : chunk_end n T i = 0 := by
  unfold chunk_end
  rw [if_neg hi, chunk_start_oversubscribed n T hT h2, chunk_size_oversubscribed n T hT h2]
  rfl

theorem chunk_end_last (n : Nat) (T : Int) (hn : (n : Int) ≤ INT_MAX) :
    chunk_end n T (T - 1) = (n : Int) := by
  unfold chunk_end
  rw [if_pos rfl]
  apply to_int_of_range
  · unfold INT_MIN; omega
  · exact hn

theorem normal_of_wellTyped {s : Result} (h : s.WellTyped) : s.Normal :=
  ⟨to_long_long_of_range h.1 h.2.1, h.2.2.2⟩

theorem atomic_merge_start_pair (fuel : Nat) (spur : List Bool) {s : Result}
    (h : s.Normal) (hfuel : 0 < fuel) : atomic_merge fuel spur s start_pair = some s := by
  obtain ⟨k, rfl⟩ : ∃ k, fuel = k + 1 := ⟨fuel - 1, by omega⟩
  obtain ⟨hs, hm⟩ := h
  have hnot : ¬ (start_pair.min_multiple_of_13 < s.min_multiple_of_13) := by
    have : start_pair.min_multiple_of_13 = INT_MAX := rfl
    omega
  unfold atomic_merge
  simp only [cas_loop, if_neg hnot]
  have h0 : s.sum + start_pair.sum = s.sum := by
    have : start_pair.sum = 0 := rfl
    omega
  simp only [Option.map_some', h0, hs]

/-! ## The merge as a monoid operation -/

theorem mutex_merge_assoc (a b c : Result) :
    mutex_merge (mutex_merge a b) c = mutex_merge a (mutex_merge b c) := by
  simp only [mutex_merge, to_long_long_add_left, to_long_long_add_right, add_assoc,
    Result.mk.injEq, true_and]
  split_ifs <;> omega

theorem mutex_merge_comm (a b : Result) : mutex_merge a b = mutex_merge b a := by
  simp only [mutex_merge, Result.mk.injEq]
  constructor
  · rw [add_comm]
  · split_ifs <;> omega

theorem start_pair_merge {s : Result} (h : s.Normal) : mutex_merge start_pair s = s := by
  rw [mutex_merge_comm, merge_start_pair h]

theorem at_index_some (arr : List Int) (j : Int) (h0 : 0 ≤ j) (h1 : j < (arr.length : Int)) :
    ∃ x, at_index arr j = some x := by
  have hj : j.toNat < arr.length := by omega
  refine ⟨arr[j.toNat], ?_⟩
  unfold at_index
  rw [if_pos h0, List.getElem?_eq_getElem hj]

/-! ## The minimum and the sentinel -/

theorem scan_min_spec (arr : List Int) (hint : AllInt arr) :
    ((arr.foldl scan_step start_pair).min_multiple_of_13 = INT_MAX ↔
        ∀ x ∈ arr, ¬ (13 : Int) ∣ x) ∧
      ((∃ x ∈ arr, (13 : Int) ∣ x) →
        (arr.foldl scan_step start_pair).min_multiple_of_13 ∈ arr ∧
          (13 : Int) ∣ (arr.foldl scan_step start_pair).min_multiple_of_13 ∧
          ∀ y ∈ arr, (13 : Int) ∣ y →
            (arr.foldl scan_step start_pair).min_multiple_of_13 ≤ y) := by
  obtain ⟨_, hle, hor⟩ := foldl_scan_min arr start_pair
  have hm : start_pair.min_multiple_of_13 = INT_MAX := rfl
  rw [hm] at hor
  have hex : (∃ x ∈ arr, (13 : Int) ∣ x) →
      (arr.foldl scan_step start_pair).min_multiple_of_13 ∈ arr ∧
        (13 : Int) ∣ (arr.foldl scan_step start_pair).min_multiple_of_13 := by
    rintro ⟨x, hx, h13⟩
    have hxle := hle x hx h13
    have hxi := (hint x hx).2
    rcases hor with h | ⟨hmem, hdvd⟩
    · exfalso
      have hxeq : x = INT_MAX := le_antisymm hxi (h ▸ hxle)
      exact int_max_not_multiple (hxeq ▸ h13)
    · exact ⟨hmem, hdvd⟩
  refine ⟨⟨?_, ?_⟩, fun h => ⟨(hex h).1, (hex h).2, hle⟩⟩
  · intro heq x hx h13
    have := (hex ⟨x, hx, h13⟩).2
    rw [heq] at this
    exact int_max_not_multiple this
  · intro hno
    rcases hor with h | ⟨hmem, hdvd⟩
    · exact h
    · exact absurd hdvd (hno _ hmem)

/-- With `2^31` elements and one worker, `end` is `-2^31`: the only worker
scans nothing. -/
theorem with_mutex_two_pow_31 (arr : List Int) (out : Result)
    (h : arr.length = 2147483648) : with_mutex arr out 1 [0] = some start_pair := by
  have e0 : chunk_start 2147483648 1 ((0 : Nat) : Int) = 0 := by decide
  have e1 : chunk_end 2147483648 1 ((0 : Nat) : Int) = -2147483648 := by decide
  have w0 : worker_local arr 1 0 = some start_pair := by
    unfold worker_local
    rw [h, e0, e1]
    exact process_chunk_local_empty arr _ _ (by decide)
  rw [with_mutex_eq_of_ne arr out 1 _ (by decide)]
  simp only [List.foldlM_cons, w0]
  rfl

/-! ## Exact sums -/

theorem slice_allInt (arr : List Int) (a b : Nat) (h : AllInt arr) : AllInt (slice arr a b) :=
  fun x hx => h x (List.mem_of_mem_drop (List.mem_of_mem_take hx))

theorem slice_length (arr : List Int) (a b : Nat) (hab : a ≤ b) (hb : b ≤ arr.length) :
    (slice arr a b).length = b - a := by
  unfold slice
  rw [List.length_take, List.length_drop]
  omega

theorem allInt_append_left {xs ys : List Int} (h : AllInt (xs ++ ys)) : AllInt xs :=
  fun x hx => h x (List.mem_append_left ys hx)

theorem foldl_scan_sum_exact (xs : List Int) (hint : AllInt xs)
    (hlen : (xs.length : Int) ≤ INT_MAX) :
    (xs.foldl scan_step start_pair).sum = sum_of_multiples xs := by
  have hsum := foldl_scan_sum xs start_pair start_pair_normal.1
  have hsp : start_pair.sum = 0 := rfl
  rw [hsp, zero_add] at hsum
  rw [hsum]
  obtain ⟨hb1, hb2⟩ := sum_of_multiples_bound xs hint
  unfold INT_MAX at hlen
  apply to_long_long_of_range
  · unfold LLONG_MIN; omega
  · unfold LLONG_MAX; omega

theorem sum_cut_lengths (n t k : Nat) (ht : 1 ≤ t) (hk : k ≤ t) :
    ((List.range k).map (fun i => cut n t (i + 1) - cut n t i)).sum = cut n t k := by
  induction k with
  | zero => simp [cut_zero n t ht]
  | succ k ih =>
    rw [List.sum_range_succ, ih (by omega)]
    have := cut_mono n t k (by omega)
    omega

theorem merged_lengths_le (n t : Nat) (ht : 1 ≤ t) (merged : List Nat) (hnd : merged.Nodup)
    (hlt : ∀ i ∈ merged, i < t) :
    (merged.map (fun i => cut n t (i + 1) - cut n t i)).sum ≤ n := by
  have hsub : merged ⊆ List.range t := fun i hi => List.mem_range.mpr (hlt i hi)
  obtain ⟨l, hperm, hsl⟩ := List.subperm_of_subset hnd hsub
  have h1 : (merged.map (fun i => cut n t (i + 1) - cut n t i)).sum =
      (l.map (fun i => cut n t (i + 1) - cut n t i)).sum :=
    ((hperm.map _).sum_eq).symm
  have h2 : (l.map (fun i => cut n t (i + 1) - cut n t i)).sum ≤
      ((List.range t).map (fun i => cut n t (i + 1) - cut n t i)).sum :=
    (hsl.map _).sum_le_sum (fun a _ => Nat.zero_le a)
  rw [h1]
  refine le_trans h2 ?_
  rw [sum_cut_lengths n t t ht (le_refl t), cut_last]

theorem list_sum_bound (l : List Nat) (f : Nat → Int) (g : Nat → Nat)
    (h : ∀ i ∈ l, -((g i : Int) * 2147483648) ≤ f i ∧ f i ≤ (g i : Int) * 2147483648) :
    -((((l.map g).sum : Nat) : Int) * 2147483648) ≤ (l.map f).sum ∧
      (l.map f).sum ≤ (((l.map g).sum : Nat) : Int) * 2147483648 := by
  induction l with
  | nil => simp
  | cons x xs ih =>
    have hx := h x (List.mem_cons_self x xs)
    have ih1 := ih (fun i hi => h i (List.mem_cons_of_mem x hi))
    simp only [List.map_cons, List.sum_cons, Nat.cast_add]
    constructor <;> omega

theorem foldl_merge_sum (ls : List Result) (s : Result) (hs : to_long_long s.sum = s.sum) :
    (ls.foldl mutex_merge s).sum = to_long_long (s.sum + (ls.map Result.sum).sum) := by
  induction ls generalizing s with
  | nil => simp [hs]
  | cons l ls ih =>
    rw [List.foldl_cons, ih _ (to_long_long_idem _)]
    simp only [mutex_merge, to_long_long_add_left, List.map_cons, List.sum_cons, add_assoc]

theorem foldl_merge_min (ls : List Result) (s : Result) :
    (ls.foldl mutex_merge s).min_multiple_of_13 =
      (ls.map Result.min_multiple_of_13).foldl min s.min_multiple_of_13 := by
  induction ls generalizing s with
  | nil => rfl
  | cons l ls ih =>
    rw [List.foldl_cons, ih, List.map_cons, List.foldl_cons]
    congr 1
    simp only [mutex_merge]
    split_ifs <;> omega

theorem mutex_merge_min_le (s l : Result) :
    (mutex_merge s l).min_multiple_of_13 ≤ s.min_multiple_of_13 ∧
      (mutex_merge s l).min_multiple_of_13 ≤ l.min_multiple_of_13 := by
  simp only [mutex_merge]
  split_ifs <;> omega

/-- The local sum of a worker is the exact sum of the multiples of 13 in its
range, and is bounded by the length of the range. -/
theorem worker_local_sum (arr : List Int) (T : Int) (hint : AllInt arr)
    (hn : (arr.length : Int) ≤ INT_MAX) (h1 : 1 ≤ T) (h2 : T ≤ INT_MAX) (i : Nat)
    (hi : i < T.toNat) (l : Result) (hl : worker_local arr T i = some l) :
    l.sum = sum_of_multiples
        (slice arr (cut arr.length T.toNat i) (cut arr.length T.toNat (i + 1))) ∧
      -(((cut arr.length T.toNat (i + 1) - cut arr.length T.toNat i : Nat) : Int) *
          2147483648) ≤ l.sum ∧
      l.sum ≤ ((cut arr.length T.toNat (i + 1) - cut arr.length T.toNat i : Nat) : Int) *
        2147483648 := by
  rw [worker_local_eq arr T hn h1 h2 i hi] at hl
  have hl1 := (Option.some.inj hl).symm
  have hmono := cut_mono arr.length T.toNat i hi
  have hle := cut_le arr.length T.toNat (i + 1) (by omega)
  have hsl := slice_length arr _ _ hmono hle
  have hsi := slice_allInt arr (cut arr.length T.toNat i) (cut arr.length T.toNat (i + 1)) hint
  have hex := foldl_scan_sum_exact _ hsi (by rw [hsl]; omega)
  have hb := sum_of_multiples_bound _ hsi
  rw [hsl] at hb
  rw [hl1, hex]
  exact ⟨rfl, hb.1, hb.2⟩

/-- The local sums of distinct workers add up within the `long long` range. -/
theorem merged_sum_bound (arr : List Int) (T : Int) (hint : AllInt arr)
    (hn : (arr.length : Int) ≤ INT_MAX) (h1 : 1 ≤ T) (h2 : T ≤ INT_MAX)
    (merged : List Nat) (locals : Nat → Result) (hnd : merged.Nodup)
    (hlt : ∀ i ∈ merged, i < T.toNat)
    (hloc : ∀ i ∈ merged, worker_local arr T i = some (locals i)) :
    LLONG_MIN ≤ (merged.map (fun i => (locals i).sum)).sum ∧
      (merged.map (fun i => (locals i).sum)).sum ≤ LLONG_MAX := by
  have hb := list_sum_bound merged (fun i => (locals i).sum)
    (fun i => cut arr.length T.toNat (i + 1) - cut arr.length T.toNat i)
    (fun i hi => (worker_local_sum arr T hint hn h1 h2 i (hlt i hi) (locals i) (hloc i hi)).2)
  have hlen := merged_lengths_le arr.length T.toNat (by omega) merged hnd hlt
  generalize (merged.map (fun i => cut arr.length T.toNat (i + 1) -
    cut arr.length T.toNat i)).sum = total at hb hlen
  unfold INT_MAX at hn
  unfold LLONG_MIN LLONG_MAX
  constructor <;> omega

/-- The shared pair of the mutex reducer after the workers of `merged` have
merged, in that order. -/
theorem with_mutex_merged (arr : List Int) (out : Result) (T : Int) (merged : List Nat)
    (locals : Nat → Result) (h1 : 1 ≤ T) (h2 : T ≤ INT_MAX)
    (hloc : ∀ i ∈ merged, worker_local arr T i = some (locals i)) :
    with_mutex arr out T merged = some ((merged.map locals).foldl mutex_merge start_pair) := by
  rw [with_mutex_eq_of_ne arr out T _ (to_size_t_ne_zero h1 h2)]
  exact foldlM_merge_some (worker_local arr T) locals merged hloc start_pair

theorem with_mutex_snoc (arr : List Int) (out : Result) (T : Int) (merged : List Nat)
    (w : Nat) (s l : Result) (hs : with_mutex arr out T merged = some s)
    (hl : worker_local arr T w = some l) :
    with_mutex arr out T (merged ++ [w]) = some (mutex_merge s l) := by
  rw [with_mutex_eq] at hs ⊢
  split_ifs at hs ⊢
  rw [List.foldlM_append, hs]
  simp [hl]

theorem map_locals_sum (merged : List Nat) (locals : Nat → Result) :
    ((merged.map locals).map Result.sum) = merged.map (fun i => (locals i).sum) := by
  rw [List.map_map]
  rfl

theorem map_locals_min (merged : List Nat) (locals : Nat → Result) :
    ((merged.map locals).map Result.min_multiple_of_13) =
      merged.map (fun i => (locals i).min_multiple_of_13) := by
  rw [List.map_map]
  rfl

/-! ## The accumulators at every point -/

theorem chunk_loop_split (arr : List Int) (k1 k2 : Nat) (i : Int) (acc : Result) :
    chunk_loop arr (k1 + k2) i acc =
      (chunk_loop arr k1 i acc).bind (fun acc1 => chunk_loop arr k2 (i + (k1 : Int)) acc1) := by
  induction k1 generalizing i acc with
  | zero => simp [chunk_loop]
  | succ k ih =>
    have hk : k + 1 + k2 = (k + k2) + 1 := by omega
    rw [hk, chunk_loop, chunk_loop]
    cases at_index arr i with
    | none => rfl
    | some x =>
      simp only
      rw [ih]
      have hi : i + 1 + (k : Int) = i + ((k + 1 : Nat) : Int) := by push_cast; ring
      rw [hi]

/-- The scan of a prefix adds the next element without leaving the
`long long` range. -/
theorem scan_prefix_in_range (pre : List Int) (x : Int) (n : Nat) (hint : AllInt pre)
    (hx : INT_MIN ≤ x ∧ x ≤ INT_MAX) (hlen : pre.length < n) (hn : (n : Int) ≤ INT_MAX) :
    (pre.foldl scan_step start_pair).sum = sum_of_multiples pre ∧
      LLONG_MIN ≤ (pre.foldl scan_step start_pair).sum + x ∧
      (pre.foldl scan_step start_pair).sum + x ≤ LLONG_MAX := by
  have hex := foldl_scan_sum_exact pre hint (by omega)
  obtain ⟨hb1, hb2⟩ := sum_of_multiples_bound pre hint
  rw [hex]
  unfold INT_MIN INT_MAX at hx
  unfold INT_MAX at hn
  unfold LLONG_MIN LLONG_MAX
  refine ⟨rfl, ?_, ?_⟩ <;> omega

/-- The local phase of a worker at index `j` of its range: the local pair so
far is the scan of the elements before `j`, the loop goes on from it, and
adding `arr[j]` does not leave the `long long` range. -/
theorem local_phase_at (arr : List Int) (T : Int) (hint : AllInt arr)
    (hn : (arr.length : Int) ≤ INT_MAX) (h1 : 1 ≤ T) (h2 : T ≤ INT_MAX) (i : Nat)
    (hi : (i : Int) < T) (j : Int) (hj1 : chunk_start arr.length T (i : Int) ≤ j)
    (hj2 : j < chunk_end arr.length T (i : Int)) :
    ∃ (acc : Result) (x : Int),
      process_chunk_local arr (chunk_start arr.length T (i : Int)) j = some acc ∧
        at_index arr j = some x ∧
        worker_local arr T i =
          chunk_loop arr (chunk_end arr.length T (i : Int) - j).toNat j acc ∧
        acc.sum = sum_of_multiples
          (slice arr (chunk_start arr.length T (i : Int)).toNat j.toNat) ∧
        LLONG_MIN ≤ acc.sum + x ∧ acc.sum + x ≤ LLONG_MAX := by
  have hit : i < T.toNat := by omega
  have hs := chunk_start_eq arr.length T hn h1 h2 i hit
  have he := chunk_end_eq arr.length T hn h1 h2 i hit
  have hle := cut_le arr.length T.toNat (i + 1) (by omega)
  rw [hs] at hj1
  rw [he] at hj2
  have hjn : j = ((j.toNat : Nat) : Int) := by omega
  have hjlt : j.toNat < arr.length := by omega
  have hloc := process_chunk_local_eq arr (cut arr.length T.toNat i) j.toNat (by omega)
    (by omega)
  rw [← hjn] at hloc
  have hsi := slice_allInt arr (cut arr.length T.toNat i) j.toNat hint
  have hsl := slice_length arr (cut arr.length T.toNat i) j.toNat (by omega) (by omega)
  have hx := hint arr[j.toNat] (List.getElem_mem hjlt)
  have hrange := scan_prefix_in_range (slice arr (cut arr.length T.toNat i) j.toNat)
    arr[j.toNat] arr.length hsi hx (by rw [hsl]; omega) hn
  refine ⟨_, arr[j.toNat], ?_, ?_, ?_, ?_, hrange.2.1, hrange.2.2⟩
  · rw [hs]
    exact hloc
  · unfold at_index
    rw [if_pos (by omega), List.getElem?_eq_getElem hjlt]
  · unfold worker_local
    rw [he, hs]
    have hk : ((cut arr.length T.toNat (i + 1) : Nat) : Int) -
        ((cut arr.length T.toNat i : Nat) : Int) =
        (((j.toNat - cut arr.length T.toNat i) +
          (cut arr.length T.toNat (i + 1) - j.toNat) : Nat) : Int) := by omega
    have hk2 : (((cut arr.length T.toNat (i + 1) : Nat) : Int) - j).toNat =
        cut arr.length T.toNat (i + 1) - j.toNat := by omega
    have hk1 : ((cut arr.length T.toNat i : Nat) : Int) +
        ((j.toNat - cut arr.length T.toNat i : Nat) : Int) = j := by omega
    have hk3 : (j - ((cut arr.length T.toNat i : Nat) : Int)).toNat =
        j.toNat - cut arr.length T.toNat i := by omega
    unfold process_chunk_local at hloc ⊢
    rw [hk3] at hloc
    rw [hk, Int.toNat_ofNat, chunk_loop_split, hloc, hk2, hk1]
    rfl
  · rw [hs, Int.toNat_ofNat]
    exact hrange.1

/-- The shared sum after the distinct workers of `merged` have merged is the
exact sum of their local sums, and the merge of one more worker does not leave
the `long long` range. -/
theorem shared_sum_at (arr : List Int) (out : Result) (T : Int) (hint : AllInt arr)
    (hn : (arr.length : Int) ≤ INT_MAX) (h1 : 1 ≤ T) (h2 : T ≤ INT_MAX)
    (merged : List Nat) (w : Nat) (hnd : (w :: merged).Nodup)
    (hlt : ∀ i ∈ w :: merged, i < T.toNat) :
    ∃ s l : Result, with_mutex arr out T merged = some s ∧
      worker_local arr T w = some l ∧
      s.sum = (merged.map (fun i => sum_of_multiples
        (slice arr (cut arr.length T.toNat i) (cut arr.length T.toNat (i + 1))))).sum ∧
      l.sum = sum_of_multiples
        (slice arr (cut arr.length T.toNat w) (cut arr.length T.toNat (w + 1))) ∧
      LLONG_MIN ≤ s.sum + l.sum ∧ s.sum + l.sum ≤ LLONG_MAX := by
  have hlocw : ∀ i ∈ w :: merged, worker_local arr T i = some
      ((slice arr (cut arr.length T.toNat i) (cut arr.length T.toNat (i + 1))).foldl
        scan_step start_pair) :=
    fun i hi => worker_local_eq arr T hn h1 h2 i (hlt i hi)
  have hloc : ∀ i ∈ merged, worker_local arr T i = some
      ((slice arr (cut arr.length T.toNat i) (cut arr.length T.toNat (i + 1))).foldl
        scan_step start_pair) :=
    fun i hi => hlocw i (List.mem_cons_of_mem w hi)
  have hrun := with_mutex_merged arr out T merged _ h1 h2 hloc
  have hsum := foldl_merge_sum (merged.map (fun i =>
    (slice arr (cut arr.length T.toNat i) (cut arr.length T.toNat (i + 1))).foldl
      scan_step start_pair)) start_pair start_pair_normal.1
  have hsp : start_pair.sum = 0 := rfl
  rw [hsp, zero_add, map_locals_sum] at hsum
  have hbm := merged_sum_bound arr T hint hn h1 h2 merged _ (List.nodup_cons.mp hnd).2
    (fun i hi => hlt i (List.mem_cons_of_mem w hi)) hloc
  have hbw := merged_sum_bound arr T hint hn h1 h2 (w :: merged) _ hnd hlt hlocw
  rw [to_long_long_of_range hbm.1 hbm.2] at hsum
  have hexact : ∀ i ∈ w :: merged,
      ((slice arr (cut arr.length T.toNat i) (cut arr.length T.toNat (i + 1))).foldl
        scan_step start_pair).sum = sum_of_multiples
          (slice arr (cut arr.length T.toNat i) (cut arr.length T.toNat (i + 1))) :=
    fun i hi => (worker_local_sum arr T hint hn h1 h2 i (hlt i hi) _ (hlocw i hi)).1
  have hmap : merged.map (fun i =>
      ((slice arr (cut arr.length T.toNat i) (cut arr.length T.toNat (i + 1))).foldl
        scan_step start_pair).sum) = merged.map (fun i => sum_of_multiples
        (slice arr (cut arr.length T.toNat i) (cut arr.length T.toNat (i + 1)))) :=
    List.map_congr_left (fun i hi => hexact i (List.mem_cons_of_mem w hi))
  simp only [List.map_cons, List.sum_cons] at hbw
  refine ⟨_, _, hrun, hlocw w (List.mem_cons_self w merged), ?_,
    hexact w (List.mem_cons_self w merged), ?_, ?_⟩
  · rw [hsum, hmap]
  · rw [hsum]
    omega
  · rw [hsum]
    omega

/-! ## The steps of the retry loop -/

theorem set_at_same {α : Type} (f : Nat → α) (w : Nat) (x : α) : set_at f w x w = x := by
  simp [set_at]

theorem set_at_ne {α : Type} (f : Nat → α) (w : Nat) (x : α) (v : Nat) (h : v ≠ w) :
    set_at f w x v = f v := by
  simp [set_at, h]

theorem min_step_before (lm : Nat → Int) (s : MinState) (w : Nat) (sp : Bool)
    (h : s.phase w = Phase.before_load) :
    min_step lm s w sp = { s with phase := set_at s.phase w (Phase.in_loop s.shared_min) } := by
  simp only [min_step, h]

theorem min_step_exited (lm : Nat → Int) (s : MinState) (w : Nat) (sp : Bool)
    (h : s.phase w = Phase.exited) : min_step lm s w sp = s := by
  simp only [min_step, h]

theorem min_step_test_exit (lm : Nat → Int) (s : MinState) (w : Nat) (sp : Bool) (cur : Int)
    (h : s.phase w = Phase.in_loop cur) (hn : ¬ lm w < cur) :
    min_step lm s w sp = { s with phase := set_at s.phase w Phase.exited } := by
  simp only [min_step, h, if_neg hn]

theorem min_step_success (lm : Nat → Int) (s : MinState) (w : Nat) (sp : Bool) (cur : Int)
    (h : s.phase w = Phase.in_loop cur) (hlt : lm w < cur) (heq : s.shared_min = cur)
    (hsp : sp = false) :
    min_step lm s w sp =
      { s with
        shared_min := lm w
        phase := set_at s.phase w Phase.exited
        updates := s.updates + 1
        successes := set_at s.successes w (s.successes w + 1) } := by
  simp [min_step, h, hlt, compare_exchange_weak, heq, hsp]

theorem min_step_spurious (lm : Nat → Int) (s : MinState) (w : Nat) (sp : Bool) (cur : Int)
    (h : s.phase w = Phase.in_loop cur) (hlt : lm w < cur) (heq : s.shared_min = cur)
    (hsp : sp = true) :
    min_step lm s w sp =
      { s with
        phase := set_at s.phase w (Phase.in_loop s.shared_min)
        retries := set_at s.retries w (s.retries w + 1)
        spurious := set_at s.spurious w (s.spurious w + 1) } := by
  simp [min_step, h, hlt, compare_exchange_weak, heq, hsp]

theorem min_step_fail (lm : Nat → Int) (s : MinState) (w : Nat) (sp : Bool) (cur : Int)
    (h : s.phase w = Phase.in_loop cur) (hlt : lm w < cur) (hne : s.shared_min ≠ cur) :
    min_step lm s w sp =
      { s with
        phase := set_at s.phase w (Phase.in_loop s.shared_min)
        retries := set_at s.retries w (s.retries w + 1) } := by
  simp [min_step, h, hlt, compare_exchange_weak, hne]

theorem min_run_append (lm : Nat → Int) (s : MinState) (l1 l2 : List (Nat × Bool)) :
    min_run lm s (l1 ++ l2) = min_run lm (min_run lm s l1) l2 := by
  simp [min_run, List.foldl_append]

theorem min_run_cons (lm : Nat → Int) (s : MinState) (p : Nat × Bool)
    (l : List (Nat × Bool)) :
    min_run lm s (p :: l) = min_run lm (min_step lm s p.1 p.2) l := rfl

theorem min_run_nil (lm : Nat → Int) (s : MinState) : min_run lm s [] = s := rfl

/-- A step leaves the shared minimum unchanged or strictly lowers it. -/
theorem min_step_shared (lm : Nat → Int) (s : MinState) (w : Nat) (sp : Bool) :
    (min_step lm s w sp).shared_min = s.shared_min ∨
      (min_step lm s w sp).shared_min < s.shared_min := by
  cases hph : s.phase w with
  | before_load => rw [min_step_before lm s w sp hph]; exact Or.inl rfl
  | exited => rw [min_step_exited lm s w sp hph]; exact Or.inl rfl
  | in_loop cur =>
    by_cases hlt : lm w < cur
    · by_cases heq : s.shared_min = cur
      · cases sp with
        | false =>
          rw [min_step_success lm s w false cur hph hlt heq rfl]
          right
          show lm w < s.shared_min
          omega
        | true =>
          rw [min_step_spurious lm s w true cur hph hlt heq rfl]
          exact Or.inl rfl
      · rw [min_step_fail lm s w sp cur hph hlt heq]
        exact Or.inl rfl
    · rw [min_step_test_exit lm s w sp cur hph hlt]
      exact Or.inl rfl

theorem min_run_shared_le (lm : Nat → Int) (s : MinState) (sched : List (Nat × Bool)) :
    (min_run lm s sched).shared_min ≤ s.shared_min := by
  induction sched generalizing s with
  | nil => exact le_refl _
  | cons p l ih =>
    rw [min_run_cons]
    have h1 := ih (min_step lm s p.1 p.2)
    rcases min_step_shared lm s p.1 p.2 with h | h <;> omega

/-- The loop is left only by a successful compare-exchange, which sets the
shared minimum to the local minimum, or because the last observed value is not
larger than the local minimum. -/
theorem min_step_exit (lm : Nat → Int) (s : MinState) (w : Nat) (sp : Bool)
    (h0 : s.phase w ≠ Phase.exited) (h1 : (min_step lm s w sp).phase w = Phase.exited) :
    ∃ cur, s.phase w = Phase.in_loop cur ∧
      ((lm w < cur ∧ s.shared_min = cur ∧ sp = false ∧
          (min_step lm s w sp).shared_min = lm w) ∨
        (¬ lm w < cur ∧ (min_step lm s w sp).shared_min = s.shared_min)) := by
  cases hph : s.phase w with
  | before_load =>
    rw [min_step_before lm s w sp hph] at h1
    simp [set_at] at h1
  | exited => exact absurd hph h0
  | in_loop cur =>
    refine ⟨cur, rfl, ?_⟩
    by_cases hlt : lm w < cur
    · by_cases heq : s.shared_min = cur
      · cases sp with
        | false =>
          rw [min_step_success lm s w false cur hph hlt heq rfl]
          exact Or.inl ⟨hlt, heq, rfl, rfl⟩
        | true =>
          rw [min_step_spurious lm s w true cur hph hlt heq rfl] at h1
          simp [set_at] at h1
      · rw [min_step_fail lm s w sp cur hph hlt heq] at h1
        simp [set_at] at h1
    · rw [min_step_test_exit lm s w sp cur hph hlt]
      exact Or.inr ⟨hlt, rfl⟩

theorem min_safe_init (lm : Nat → Int) (m0 : Int) : MinSafe lm (min_init m0) := by
  constructor
  · intro w cur h
    simp [min_init] at h
  · intro w h
    simp [min_init] at h

theorem min_safe_step (lm : Nat → Int) (s : MinState) (w : Nat) (sp : Bool)
    (h : MinSafe lm s) : MinSafe lm (min_step lm s w sp) := by
  obtain ⟨h1, h2⟩ := h
  cases hph : s.phase w with
  | before_load =>
    rw [min_step_before lm s w sp hph]
    constructor
    · intro v cur hv
      by_cases hvw : v = w
      · subst hvw
        simp only [set_at_same] at hv
        have := Phase.in_loop.inj hv
        show s.shared_min ≤ cur
        omega
      · simp only [set_at_ne _ _ _ _ hvw] at hv
        exact h1 v cur hv
    · intro v hv
      by_cases hvw : v = w
      · subst hvw
        simp only [set_at_same] at hv
        exact absurd hv (by simp)
      · simp only [set_at_ne _ _ _ _ hvw] at hv
        exact h2 v hv
  | exited =>
    rw [min_step_exited lm s w sp hph]
    exact ⟨h1, h2⟩
  | in_loop cur =>
    have hcur := h1 w cur hph
    by_cases hlt : lm w < cur
    · by_cases heq : s.shared_min = cur
      · cases sp with
        | false =>
          rw [min_step_success lm s w false cur hph hlt heq rfl]
          constructor
          · intro v c hv
            by_cases hvw : v = w
            · subst hvw
              simp only [set_at_same] at hv
              exact absurd hv (by simp)
            · simp only [set_at_ne _ _ _ _ hvw] at hv
              have := h1 v c hv
              show lm w ≤ c
              omega
          · intro v hv
            by_cases hvw : v = w
            · subst hvw
              exact le_refl _
            · simp only [set_at_ne _ _ _ _ hvw] at hv
              have := h2 v hv
              show lm w ≤ lm v
              omega
        | true =>
          rw [min_step_spurious lm s w true cur hph hlt heq rfl]
          constructor
          · intro v c hv
            by_cases hvw : v = w
            · subst hvw
              simp only [set_at_same] at hv
              have := Phase.in_loop.inj hv
              show s.shared_min ≤ c
              omega
            · simp only [set_at_ne _ _ _ _ hvw] at hv
              exact h1 v c hv
          · intro v hv
            by_cases hvw : v = w
            · subst hvw
              simp only [set_at_same] at hv
              exact absurd hv (by simp)
            · simp only [set_at_ne _ _ _ _ hvw] at hv
              exact h2 v hv
      · rw [min_step_fail lm s w sp cur hph hlt heq]
        constructor
        · intro v c hv
          by_cases hvw : v = w
          · subst hvw
            simp only [set_at_same] at hv
            have := Phase.in_loop.inj hv
            show s.shared_min ≤ c
            omega
          · simp only [set_at_ne _ _ _ _ hvw] at hv
            exact h1 v c hv
        · intro v hv
          by_cases hvw : v = w
          · subst hvw
            simp only [set_at_same] at hv
            exact absurd hv (by simp)
          · simp only [set_at_ne _ _ _ _ hvw] at hv
            exact h2 v hv
    · rw [min_step_test_exit lm s w sp cur hph hlt]
      constructor
      · intro v c hv
        by_cases hvw : v = w
        · subst hvw
          simp only [set_at_same] at hv
          exact absurd hv (by simp)
        · simp only [set_at_ne _ _ _ _ hvw] at hv
          exact h1 v c hv
      · intro v hv
        by_cases hvw : v = w
        · subst hvw
          show s.shared_min ≤ lm v
          omega
        · simp only [set_at_ne _ _ _ _ hvw] at hv
          exact h2 v hv

theorem min_safe_run (lm : Nat → Int) (s : MinState) (sched : List (Nat × Bool))
    (h : MinSafe lm s) : MinSafe lm (min_run lm s sched) := by
  induction sched generalizing s with
  | nil => exact h
  | cons p l ih =>
    rw [min_run_cons]
    exact ih _ (min_safe_step lm s p.1 p.2 h)

/-- A worker past the loop does not move any more. -/
theorem min_run_exited (lm : Nat → Int) (s : MinState) (w : Nat) (fl : List Bool)
    (h : s.phase w = Phase.exited) : min_run lm s (fl.map (fun b => (w, b))) = s := by
  induction fl with
  | nil => rfl
  | cons b fl ih =>
    rw [List.map_cons, min_run_cons, min_step_exited lm s w b h]
    exact ih

/-- A worker that moves alone from the test of the loop, having loaded the
shared minimum, leaves the loop with the shared minimum lowered to its local
minimum when that is smaller, whatever spurious failures come first. -/
theorem min_run_alone_in_loop (lm : Nat → Int) (w : Nat) (fl : List Bool) (s : MinState)
    (h : s.phase w = Phase.in_loop s.shared_min) :
    (min_run lm s ((fl ++ [false]).map (fun b => (w, b)))).phase w = Phase.exited ∧
      (min_run lm s ((fl ++ [false]).map (fun b => (w, b)))).shared_min =
        if lm w < s.shared_min then lm w else s.shared_min := by
  induction fl generalizing s with
  | nil =>
    simp only [List.nil_append, List.map_cons, List.map_nil, min_run_cons, min_run_nil]
    by_cases hlt : lm w < s.shared_min
    · rw [min_step_success lm s w false _ h hlt rfl rfl, if_pos hlt]
      exact ⟨set_at_same _ _ _, rfl⟩
    · rw [min_step_test_exit lm s w false _ h hlt, if_neg hlt]
      exact ⟨set_at_same _ _ _, rfl⟩
  | cons b fl ih =>
    simp only [List.cons_append, List.map_cons, min_run_cons]
    by_cases hlt : lm w < s.shared_min
    · cases b with
      | false =>
        have hex : (min_step lm s w false).phase w = Phase.exited := by
          rw [min_step_success lm s w false _ h hlt rfl rfl]
          exact set_at_same _ _ _
        rw [min_run_exited lm _ w _ hex, min_step_success lm s w false _ h hlt rfl rfl,
          if_pos hlt]
        exact ⟨set_at_same _ _ _, rfl⟩
      | true =>
        have hs1 : (min_step lm s w true).phase w =
            Phase.in_loop (min_step lm s w true).shared_min := by
          rw [min_step_spurious lm s w true _ h hlt rfl rfl]
          exact set_at_same _ _ _
        have hsh : (min_step lm s w true).shared_min = s.shared_min := by
          rw [min_step_spurious lm s w true _ h hlt rfl rfl]
        have := ih (min_step lm s w true) hs1
        rw [hsh] at this
        exact this
    · have hex : (min_step lm s w b).phase w = Phase.exited := by
        rw [min_step_test_exit lm s w b _ h hlt]
        exact set_at_same _ _ _
      rw [min_run_exited lm _ w _ hex, min_step_test_exit lm s w b _ h hlt, if_neg hlt]
      exact ⟨set_at_same _ _ _, rfl⟩

/-! ## Counting retries and updates -/

theorem total_succ (T : Nat) (f : Nat → Nat) : total (T + 1) f = total T f + f T := by
  unfold total
  exact List.sum_range_succ f T

theorem total_zero (f : Nat → Nat) : total 0 f = 0 := rfl

theorem total_add (T : Nat) (f g : Nat → Nat) :
    total T (fun w => f w + g w) = total T f + total T g := by
  induction T with
  | zero => rfl
  | succ T ih =>
    rw [total_succ, total_succ, total_succ, ih]
    omega

theorem total_le (T : Nat) (f g : Nat → Nat) (h : ∀ w, w < T → f w ≤ g w) :
    total T f ≤ total T g := by
  induction T with
  | zero => exact le_refl _
  | succ T ih =>
    rw [total_succ, total_succ]
    have h1 := ih (fun w hw => h w (by omega))
    have h2 := h T (by omega)
    omega

theorem total_const (T c : Nat) : total T (fun _ => c) = T * c := by
  induction T with
  | zero => simp [total_zero]
  | succ T ih =>
    rw [total_succ, ih, Nat.succ_mul]

theorem total_set_at_ge (T : Nat) (f : Nat → Nat) (w x : Nat) (h : T ≤ w) :
    total T (set_at f w x) = total T f := by
  induction T with
  | zero => rfl
  | succ T ih =>
    rw [total_succ, total_succ, ih (by omega), set_at_ne f w x T (by omega)]

theorem total_set_at (T : Nat) (f : Nat → Nat) (w : Nat) (h : w < T) :
    total T (set_at f w (f w + 1)) = total T f + 1 := by
  induction T with
  | zero => omega
  | succ T ih =>
    rw [total_succ, total_succ]
    by_cases hw : w = T
    · subst hw
      rw [total_set_at_ge w f w _ (le_refl _), set_at_same]
      omega
    · rw [ih (by omega), set_at_ne f w _ T (fun h => hw h.symm)]
      omega

theorem total_le_card (T : Nat) (f : Nat → Nat) (h : ∀ w, f w ≤ 1) : total T f ≤ T := by
  induction T with
  | zero => exact le_refl _
  | succ T ih =>
    rw [total_succ]
    have := h T
    omega

theorem total_le_others (T : Nat) (f : Nat → Nat) (h : ∀ w, f w ≤ 1) (w : Nat) (hw : w < T) :
    total T f ≤ (T - 1) + f w := by
  induction T with
  | zero => omega
  | succ T ih =>
    rw [total_succ]
    by_cases hwT : w = T
    · subst hwT
      have := total_le_card w f h
      omega
    · have := ih (by omega)
      have := h T
      omega

theorem steps_of_snoc (v : Nat) (sched : List (Nat × Bool)) (w : Nat) (sp : Bool) :
    steps_of v (sched ++ [(w, sp)]) = steps_of v sched + if w = v then 1 else 0 := by
  unfold steps_of
  rw [List.countP_append]
  by_cases h : w = v
  · simp [h]
  · simp [h]

theorem spurious_steps_of_snoc (v : Nat) (sched : List (Nat × Bool)) (w : Nat) (sp : Bool) :
    spurious_steps_of v (sched ++ [(w, sp)]) =
      spurious_steps_of v sched + if w = v ∧ sp = true then 1 else 0 := by
  unfold spurious_steps_of
  rw [List.countP_append]
  by_cases h : w = v
  · cases sp <;> simp [h]
  · simp [h]

theorem min_count_init (T : Nat) (m0 : Int) : MinCount T (min_init m0) := by
  refine ⟨?_, ?_, ?_, ?_, ?_⟩
  · intro w
    simp [min_init]
  · intro w cur h
    simp [min_init] at h
  · intro w _
    rfl
  · intro w
    simp [min_init]
  · show 0 = total T (fun _ => 0)
    rw [total_const, Nat.mul_zero]

theorem min_count_step (lm : Nat → Int) (T : Nat) (s : MinState) (w : Nat) (sp : Bool)
    (hw : w < T) (h : MinCount T s) : MinCount T (min_step lm s w sp) := by
  obtain ⟨i1, i2, i3, i4, i5⟩ := h
  cases hph : s.phase w with
  | before_load =>
    rw [min_step_before lm s w sp hph]
    refine ⟨i1, ?_, ?_, i4, i5⟩
    · intro v c hv
      by_cases hvw : v = w
      · subst hvw
        simp only [set_at_same] at hv
        exact Or.inl (Phase.in_loop.inj hv).symm
      · simp only [set_at_ne _ _ _ _ hvw] at hv
        exact i2 v c hv
    · intro v hv
      by_cases hvw : v = w
      · subst hvw
        exact i3 v (by rw [hph]; simp)
      · simp only [set_at_ne _ _ _ _ hvw] at hv
        exact i3 v hv
  | exited =>
    rw [min_step_exited lm s w sp hph]
    exact ⟨i1, i2, i3, i4, i5⟩
  | in_loop cur =>
    have hs0 : s.successes w = 0 := i3 w (by rw [hph]; simp)
    by_cases hlt : lm w < cur
    · by_cases heq : s.shared_min = cur
      · cases sp with
        | false =>
          rw [min_step_success lm s w false cur hph hlt heq rfl]
          refine ⟨?_, ?_, ?_, ?_, ?_⟩
          · intro v
            by_cases hvw : v = w
            · subst hvw
              simp only [set_at_same]
              have := i1 v
              omega
            · simp only [set_at_ne _ _ _ _ hvw]
              have := i1 v
              omega
          · intro v c hv
            by_cases hvw : v = w
            · subst hvw
              simp only [set_at_same] at hv
              exact absurd hv (by simp)
            · simp only [set_at_ne _ _ _ _ hvw] at hv
              right
              have := i1 v
              show s.retries v + 1 ≤ s.updates + 1 + s.spurious v
              omega
          · intro v hv
            by_cases hvw : v = w
            · subst hvw
              simp only [set_at_same] at hv
              exact absurd rfl hv
            · simp only [set_at_ne _ _ _ _ hvw] at hv ⊢
              exact i3 v hv
          · intro v
            by_cases hvw : v = w
            · subst hvw
              simp only [set_at_same]
              omega
            · simp only [set_at_ne _ _ _ _ hvw]
              exact i4 v
          · show s.updates + 1 = total T (set_at s.successes w (s.successes w + 1))
            rw [total_set_at T s.successes w hw, i5]
        | true =>
          rw [min_step_spurious lm s w true cur hph hlt heq rfl]
          refine ⟨?_, ?_, ?_, i4, i5⟩
          · intro v
            by_cases hvw : v = w
            · subst hvw
              simp only [set_at_same]
              have := i1 v
              omega
            · simp only [set_at_ne _ _ _ _ hvw]
              exact i1 v
          · intro v c hv
            by_cases hvw : v = w
            · subst hvw
              simp only [set_at_same] at hv
              exact Or.inl (Phase.in_loop.inj hv).symm
            · simp only [set_at_ne _ _ _ _ hvw] at hv ⊢
              exact i2 v c hv
          · intro v hv
            by_cases hvw : v = w
            · subst hvw
              exact hs0
            · simp only [set_at_ne _ _ _ _ hvw] at hv
              exact i3 v hv
      · rw [min_step_fail lm s w sp cur hph hlt heq]
        have hpend : s.retries w + 1 ≤ s.updates + s.spurious w := by
          rcases i2 w cur hph with h | h
          · exact absurd h.symm heq
          · exact h
        refine ⟨?_, ?_, ?_, i4, i5⟩
        · intro v
          by_cases hvw : v = w
          · subst hvw
            simp only [set_at_same]
            omega
          · simp only [set_at_ne _ _ _ _ hvw]
            exact i1 v
        · intro v c hv
          by_cases hvw : v = w
          · subst hvw
            simp only [set_at_same] at hv
            exact Or.inl (Phase.in_loop.inj hv).symm
          · simp only [set_at_ne _ _ _ _ hvw] at hv ⊢
            exact i2 v c hv
        · intro v hv
          by_cases hvw : v = w
          · subst hvw
            exact hs0
          · simp only [set_at_ne _ _ _ _ hvw] at hv
            exact i3 v hv
    · rw [min_step_test_exit lm s w sp cur hph hlt]
      refine ⟨i1, ?_, ?_, i4, i5⟩
      · intro v c hv
        by_cases hvw : v = w
        · subst hvw
          simp only [set_at_same] at hv
          exact absurd hv (by simp)
        · simp only [set_at_ne _ _ _ _ hvw] at hv
          exact i2 v c hv
      · intro v hv
        by_cases hvw : v = w
        · subst hvw
          simp only [set_at_same] at hv
          exact absurd rfl hv
        · simp only [set_at_ne _ _ _ _ hvw] at hv
          exact i3 v hv

theorem min_steps_init (m0 : Int) : MinSteps (min_init m0) [] := by
  refine ⟨?_, ?_, ?_⟩
  · intro w _
    exact ⟨rfl, rfl⟩
  · intro w cur h
    simp [min_init] at h
  · intro w
    exact Nat.zero_le _

theorem min_steps_step (lm : Nat → Int) (s : MinState) (sched : List (Nat × Bool)) (w : Nat)
    (sp : Bool) (h : MinSteps s sched) :
    MinSteps (min_step lm s w sp) (sched ++ [(w, sp)]) := by
  obtain ⟨k1, k2, k3⟩ := h
  have hother : ∀ v, v ≠ w → steps_of v (sched ++ [(w, sp)]) = steps_of v sched := by
    intro v hv
    rw [steps_of_snoc, if_neg (fun h => hv h.symm), Nat.add_zero]
  have hself : steps_of w (sched ++ [(w, sp)]) = steps_of w sched + 1 := by
    rw [steps_of_snoc, if_pos rfl]
  have hspur : ∀ v, spurious_steps_of v sched ≤ spurious_steps_of v (sched ++ [(w, sp)]) := by
    intro v
    rw [spurious_steps_of_snoc]
    omega
  cases hph : s.phase w with
  | before_load =>
    rw [min_step_before lm s w sp hph]
    refine ⟨?_, ?_, fun v => le_trans (k3 v) (hspur v)⟩
    · intro v hv
      by_cases hvw : v = w
      · subst hvw
        simp only [set_at_same] at hv
        exact absurd hv (by simp)
      · simp only [set_at_ne _ _ _ _ hvw] at hv
        rw [hother v hvw]
        exact k1 v hv
    · intro v c hv
      by_cases hvw : v = w
      · subst hvw
        have := k1 v hph
        rw [hself]
        show steps_of v sched + 1 = 1 + s.retries v
        omega
      · simp only [set_at_ne _ _ _ _ hvw] at hv
        rw [hother v hvw]
        exact k2 v c hv
  | exited =>
    rw [min_step_exited lm s w sp hph]
    refine ⟨?_, ?_, fun v => le_trans (k3 v) (hspur v)⟩
    · intro v hv
      have hvw : v ≠ w := fun h => by rw [h, hph] at hv; exact absurd hv (by simp)
      rw [hother v hvw]
      exact k1 v hv
    · intro v c hv
      have hvw : v ≠ w := fun h => by rw [h, hph] at hv; exact absurd hv (by simp)
      rw [hother v hvw]
      exact k2 v c hv
  | in_loop cur =>
    have hk2 := k2 w cur hph
    by_cases hlt : lm w < cur
    · by_cases heq : s.shared_min = cur
      · cases sp with
        | false =>
          rw [min_step_success lm s w false cur hph hlt heq rfl]
          refine ⟨?_, ?_, fun v => le_trans (k3 v) (hspur v)⟩
          · intro v hv
            by_cases hvw : v = w
            · subst hvw
              simp only [set_at_same] at hv
              exact absurd hv (by simp)
            · simp only [set_at_ne _ _ _ _ hvw] at hv
              rw [hother v hvw]
              exact k1 v hv
          · intro v c hv
            by_cases hvw : v = w
            · subst hvw
              simp only [set_at_same] at hv
              exact absurd hv (by simp)
            · simp only [set_at_ne _ _ _ _ hvw] at hv
              rw [hother v hvw]
              exact k2 v c hv
        | true =>
          rw [min_step_spurious lm s w true cur hph hlt heq rfl]
          refine ⟨?_, ?_, ?_⟩
          · intro v hv
            by_cases hvw : v = w
            · subst hvw
              simp only [set_at_same] at hv
              exact absurd hv (by simp)
            · simp only [set_at_ne _ _ _ _ hvw] at hv ⊢
              rw [hother v hvw]
              exact k1 v hv
          · intro v c hv
            by_cases hvw : v = w
            · subst hvw
              simp only [set_at_same]
              rw [hself]
              omega
            · simp only [set_at_ne _ _ _ _ hvw] at hv ⊢
              rw [hother v hvw]
              exact k2 v c hv
          · intro v
            by_cases hvw : v = w
            · subst hvw
              simp only [set_at_same]
              rw [spurious_steps_of_snoc, if_pos ⟨rfl, rfl⟩]
              have := k3 v
              omega
            · simp only [set_at_ne _ _ _ _ hvw]
              exact le_trans (k3 v) (hspur v)
      · rw [min_step_fail lm s w sp cur hph hlt heq]
        refine ⟨?_, ?_, fun v => le_trans (k3 v) (hspur v)⟩
        · intro v hv
          by_cases hvw : v = w
          · subst hvw
            simp only [set_at_same] at hv
            exact absurd hv (by simp)
          · simp only [set_at_ne _ _ _ _ hvw] at hv ⊢
            rw [hother v hvw]
            exact k1 v hv
        · intro v c hv
          by_cases hvw : v = w
          · subst hvw
            simp only [set_at_same]
            rw [hself]
            omega
          · simp only [set_at_ne _ _ _ _ hvw] at hv ⊢
            rw [hother v hvw]
            exact k2 v c hv
    · rw [min_step_test_exit lm s w sp cur hph hlt]
      refine ⟨?_, ?_, fun v => le_trans (k3 v) (hspur v)⟩
      · intro v hv
        by_cases hvw : v = w
        · subst hvw
          simp only [set_at_same] at hv
          exact absurd hv (by simp)
        · simp only [set_at_ne _ _ _ _ hvw] at hv
          rw [hother v hvw]
          exact k1 v hv
      · intro v c hv
        by_cases hvw : v = w
        · subst hvw
          simp only [set_at_same] at hv
          exact absurd hv (by simp)
        · simp only [set_at_ne _ _ _ _ hvw] at hv
          rw [hother v hvw]
          exact k2 v c hv

/-- Every state reached from the spawning state by steps of the workers
`0 .. T - 1` satisfies the counting invariants. -/
theorem min_run_invariants (lm : Nat → Int) (T : Nat) (m0 : Int) (sched : List (Nat × Bool))
    (hs : ∀ p ∈ sched, p.1 < T) :
    MinCount T (min_run lm (min_init m0) sched) ∧
      MinSteps (min_run lm (min_init m0) sched) sched := by
  induction sched using List.reverseRecOn with
  | nil => exact ⟨min_count_init T m0, min_steps_init m0⟩
  | append_singleton l p ih =>
    obtain ⟨hc, hst⟩ := ih (fun q hq => hs q (List.mem_append_left _ hq))
    have hp : p.1 < T := hs p (by simp)
    rw [min_run_append]
    exact ⟨min_count_step lm T _ p.1 p.2 hp hc, min_steps_step lm _ l p.1 p.2 hst⟩

/-! ## Interleaved runs of the atomic reducer -/

theorem itotal_succ (T : Nat) (f : Nat → Int) : itotal (T + 1) f = itotal T f + f T := by
  unfold itotal
  exact List.sum_range_succ f T

theorem itotal_set_at_ge (T : Nat) (f : Nat → Int) (w : Nat) (x : Int) (h : T ≤ w) :
    itotal T (set_at f w x) = itotal T f := by
  induction T with
  | zero => rfl
  | succ T ih =>
    rw [itotal_succ, itotal_succ, ih (by omega), set_at_ne f w x T (by omega)]

theorem itotal_set_at (T : Nat) (f : Nat → Int) (w : Nat) (x : Int) (h : w < T) :
    itotal T (set_at f w x) = itotal T f - f w + x := by
  induction T with
  | zero => omega
  | succ T ih =>
    rw [itotal_succ, itotal_succ]
    by_cases hw : w = T
    · subst hw
      rw [itotal_set_at_ge w f w x (le_refl _), set_at_same]
      omega
    · rw [ih (by omega), set_at_ne f w x T (fun h => hw h.symm)]
      omega

theorem itotal_congr (T : Nat) (f g : Nat → Int) (h : ∀ i, i < T → f i = g i) :
    itotal T f = itotal T g := by
  induction T with
  | zero => rfl
  | succ T ih =>
    rw [itotal_succ, itotal_succ, ih (fun i hi => h i (by omega)), h T (by omega)]

theorem itotal_zero_fn (T : Nat) : itotal T (fun _ => (0 : Int)) = 0 := by
  induction T with
  | zero => rfl
  | succ T ih => rw [itotal_succ, ih, add_zero]

theorem atomic_run_append (locals : Nat → Result) (s : AtomicState)
    (l1 l2 : List (Nat × Bool)) :
    atomic_run locals s (l1 ++ l2) = atomic_run locals (atomic_run locals s l1) l2 := by
  simp [atomic_run, List.foldl_append]

theorem atomic_run_single (locals : Nat → Result) (s : AtomicState) (q : Nat × Bool) :
    atomic_run locals s [q] = atomic_step locals s q.1 q.2 := rfl

theorem atomic_step_added (locals : Nat → Result) (s : AtomicState) (w : Nat) (sp : Bool)
    (h : s.added w = true) :
    atomic_step locals s w sp =
      { s with min := min_step (fun i => (locals i).min_multiple_of_13) s.min w sp } := by
  unfold atomic_step
  rw [if_pos h]

theorem atomic_step_add (locals : Nat → Result) (s : AtomicState) (w : Nat) (sp : Bool)
    (h : s.added w = false) :
    atomic_step locals s w sp =
      { s with
        shared_sum := to_long_long (s.shared_sum + (locals w).sum)
        added := set_at s.added w true } := by
  unfold atomic_step
  rw [if_neg (by rw [h]; simp)]

/-- The shared sum is the 64-bit sum of the local sums of the workers that have
performed their `fetch_add`, whatever the interleaving. -/
theorem atomic_run_sum (locals : Nat → Result) (T : Nat) (p : Result)
    (sched : List (Nat × Bool)) (hp : to_long_long p.sum = p.sum)
    (hs : ∀ q ∈ sched, q.1 < T) :
    (atomic_run locals (atomic_init p) sched).shared_sum =
      to_long_long (p.sum + itotal T (fun i =>
        if (atomic_run locals (atomic_init p) sched).added i = true then (locals i).sum
        else 0)) := by
  induction sched using List.reverseRecOn with
  | nil =>
    have h0 : itotal T (fun i =>
        if (atomic_run locals (atomic_init p) []).added i = true then (locals i).sum
        else 0) = itotal T (fun _ => 0) :=
      itotal_congr T _ _ (fun i _ => rfl)
    rw [h0, itotal_zero_fn, add_zero, hp]
    rfl
  | append_singleton l q ih =>
    have ih1 := ih (fun r hr => hs r (List.mem_append_left _ hr))
    have hq : q.1 < T := hs q (by simp)
    rw [atomic_run_append, atomic_run_single]
    generalize atomic_run locals (atomic_init p) l = s at ih1 ⊢
    cases hadd : s.added q.1 with
    | true =>
      rw [atomic_step_added locals s q.1 q.2 hadd]
      exact ih1
    | false =>
      rw [atomic_step_add locals s q.1 q.2 hadd]
      show to_long_long (s.shared_sum + (locals q.1).sum) =
        to_long_long (p.sum + itotal T (fun i =>
          if set_at s.added q.1 true i = true then (locals i).sum else 0))
      have hfun : (fun i => if set_at s.added q.1 true i = true then (locals i).sum else 0) =
          set_at (fun i => if s.added i = true then (locals i).sum else 0) q.1
            (locals q.1).sum := by
        funext i
        by_cases hi : i = q.1
        · subst hi
          simp [set_at]
        · simp [set_at, hi]
      rw [hfun, itotal_set_at T _ q.1 _ hq, ih1, to_long_long_add_left]
      simp only [hadd]
      congr 1
      simp
      ring

/-- The steps on the shared minimum in an interleaved run form a run of the
retry loops: the schedule of those steps names the same workers, and every
worker has taken one step more than in it once it has performed its
`fetch_add`. -/
theorem atomic_run_min (locals : Nat → Result) (T : Nat) (p : Result)
    (sched : List (Nat × Bool)) (hs : ∀ q ∈ sched, q.1 < T) :
    ∃ msched : List (Nat × Bool),
      (atomic_run locals (atomic_init p) sched).min =
          min_run (fun i => (locals i).min_multiple_of_13) (min_init p.min_multiple_of_13)
            msched ∧
        (∀ q ∈ msched, q.1 < T) ∧
        ∀ w, steps_of w sched =
            (if (atomic_run locals (atomic_init p) sched).added w = true then 1 else 0) +
              steps_of w msched ∧
          spurious_steps_of w msched ≤ spurious_steps_of w sched ∧
          ((atomic_run locals (atomic_init p) sched).added w = false →
            steps_of w msched = 0) := by
  induction sched using List.reverseRecOn with
  | nil =>
    refine ⟨[], rfl, fun q hq => by simp at hq, fun w => ⟨rfl, le_refl _, fun _ => rfl⟩⟩
  | append_singleton l q ih =>
    obtain ⟨msched, hmin, hm, hcount⟩ := ih (fun r hr => hs r (List.mem_append_left _ hr))
    have hq : q.1 < T := hs q (by simp)
    rw [atomic_run_append, atomic_run_single]
    generalize atomic_run locals (atomic_init p) l = s at hmin hcount ⊢
    obtain ⟨qw, qsp⟩ := q
    cases hadd : s.added qw with
    | true =>
      rw [atomic_step_added locals s qw qsp hadd]
      refine ⟨msched ++ [(qw, qsp)], ?_, ?_, ?_⟩
      · show min_step (fun i => (locals i).min_multiple_of_13) s.min qw qsp =
          min_run (fun i => (locals i).min_multiple_of_13) (min_init p.min_multiple_of_13)
            (msched ++ [(qw, qsp)])
        rw [min_run_append, hmin]
        rfl
      · intro r hr
        rcases List.mem_append.mp hr with h | h
        · exact hm r h
        · rw [List.mem_singleton.mp h]
          exact hq
      · intro w
        obtain ⟨c1, c2, c3⟩ := hcount w
        refine ⟨?_, ?_, ?_⟩
        · show steps_of w (l ++ [(qw, qsp)]) =
            (if s.added w = true then 1 else 0) + steps_of w (msched ++ [(qw, qsp)])
          rw [steps_of_snoc, steps_of_snoc, c1]
          omega
        · rw [spurious_steps_of_snoc, spurious_steps_of_snoc]
          omega
        · intro hw
          have hw1 : s.added w = false := hw
          have hne : qw ≠ w := fun h => by rw [h] at hadd; rw [hadd] at hw1; simp at hw1
          rw [steps_of_snoc, if_neg hne, c3 hw1]
    | false =>
      rw [atomic_step_add locals s qw qsp hadd]
      refine ⟨msched, hmin, hm, ?_⟩
      intro w
      obtain ⟨c1, c2, c3⟩ := hcount w
      by_cases hw : w = qw
      · subst hw
        refine ⟨?_, ?_, ?_⟩
        · show steps_of w (l ++ [(w, qsp)]) =
            (if set_at s.added w true w = true then 1 else 0) + steps_of w msched
          rw [steps_of_snoc, if_pos rfl, set_at_same, if_pos rfl, c1, hadd, c3 hadd]
          simp
        · rw [spurious_steps_of_snoc]
          omega
        · intro h
          have h1 : set_at s.added w true w = false := h
          rw [set_at_same] at h1
          simp at h1
      · refine ⟨?_, ?_, ?_⟩
        · show steps_of w (l ++ [(qw, qsp)]) =
            (if set_at s.added qw true w = true then 1 else 0) + steps_of w msched
          rw [steps_of_snoc, if_neg (fun h => hw h.symm), set_at_ne _ _ _ _ hw, c1]
          omega
        · rw [spurious_steps_of_snoc]
          omega
        · intro h
          have h1 : set_at s.added qw true w = false := h
          rw [set_at_ne _ _ _ _ hw] at h1
          exact c3 h1

/-- A worker that has taken more than `T` steps on the shared minimum, not
counting those at which its compare-exchange may fail spuriously, is past the
loop. -/
theorem min_run_progress (lm : Nat → Int) (T : Nat) (m0 : Int) (sched : List (Nat × Bool))
    (hs : ∀ p ∈ sched, p.1 < T) (w : Nat) (hw : w < T)
    (hlt : T + spurious_steps_of w sched < steps_of w sched) :
    (min_run lm (min_init m0) sched).phase w = Phase.exited := by
  obtain ⟨⟨i1, _, _, i4, i5⟩, k1, k2, k3⟩ := min_run_invariants lm T m0 sched hs
  generalize min_run lm (min_init m0) sched = s at i1 i4 i5 k1 k2 k3 ⊢
  cases hph : s.phase w with
  | exited => rfl
  | before_load =>
    have := (k1 w hph).1
    omega
  | in_loop cur =>
    have h1 := k2 w cur hph
    have h2 := total_le_others T s.successes i4 w hw
    have h3 := k3 w
    have h4 := i1 w
    omega

theorem min_step_shared_mem (lm : Nat → Int) (s : MinState) (w : Nat) (sp : Bool) :
    (min_step lm s w sp).shared_min = s.shared_min ∨
      (min_step lm s w sp).shared_min = lm w := by
  cases hph : s.phase w with
  | before_load => rw [min_step_before lm s w sp hph]; exact Or.inl rfl
  | exited => rw [min_step_exited lm s w sp hph]; exact Or.inl rfl
  | in_loop cur =>
    by_cases hlt : lm w < cur
    · by_cases heq : s.shared_min = cur
      · cases sp with
        | false =>
          rw [min_step_success lm s w false cur hph hlt heq rfl]
          exact Or.inr rfl
        | true =>
          rw [min_step_spurious lm s w true cur hph hlt heq rfl]
          exact Or.inl rfl
      · rw [min_step_fail lm s w sp cur hph hlt heq]
        exact Or.inl rfl
    · rw [min_step_test_exit lm s w sp cur hph hlt]
      exact Or.inl rfl

/-- The shared minimum is its initial value or the local minimum of a worker
of the schedule. -/
theorem min_run_shared_mem (lm : Nat → Int) (s : MinState) (sched : List (Nat × Bool)) :
    (min_run lm s sched).shared_min = s.shared_min ∨
      ∃ q ∈ sched, (min_run lm s sched).shared_min = lm q.1 := by
  induction sched using List.reverseRecOn with
  | nil => exact Or.inl rfl
  | append_singleton l q ih =>
    rw [min_run_append]
    have hstep : min_run lm (min_run lm s l) [q] = min_step lm (min_run lm s l) q.1 q.2 := rfl
    rw [hstep]
    rcases min_step_shared_mem lm (min_run lm s l) q.1 q.2 with h | h
    · rw [h]
      rcases ih with h1 | ⟨r, hr, h1⟩
      · exact Or.inl h1
      · exact Or.inr ⟨r, List.mem_append_left _ hr, h1⟩
    · exact Or.inr ⟨q, by simp, h⟩

theorem foldl_min_char (l : List Int) (m0 x : Int) (h0 : x ≤ m0) (hall : ∀ y ∈ l, x ≤ y)
    (hmem : x = m0 ∨ x ∈ l) : l.foldl min m0 = x := by
  induction l generalizing m0 with
  | nil =>
    rcases hmem with h | h
    · exact h.symm
    · simp at h
  | cons a l ih =>
    rw [List.foldl_cons]
    have ha := hall a (List.mem_cons_self a l)
    apply ih (min m0 a) (le_min h0 ha) (fun y hy => hall y (List.mem_cons_of_mem a hy))
    rcases hmem with h | h
    · left
      rw [h] at ha ⊢
      exact (min_eq_left ha).symm
    · rcases List.mem_cons.mp h with h1 | h1
      · left
        rw [h1] at h0 ⊢
        exact (min_eq_right h0).symm
      · exact Or.inr h1

/-- Once every worker is past the loop, the shared minimum is the minimum of
its initial value and all local minima, whatever the interleaving. -/
theorem min_run_final (lm : Nat → Int) (T : Nat) (m0 : Int) (sched : List (Nat × Bool))
    (hs : ∀ p ∈ sched, p.1 < T)
    (hdone : ∀ w, w < T → (min_run lm (min_init m0) sched).phase w = Phase.exited) :
    (min_run lm (min_init m0) sched).shared_min = ((List.range T).map lm).foldl min m0 := by
  have hsafe := min_safe_run lm (min_init m0) sched (min_safe_init lm m0)
  have hle := min_run_shared_le lm (min_init m0) sched
  have hmem := min_run_shared_mem lm (min_init m0) sched
  have hm0 : (min_init m0).shared_min = m0 := rfl
  rw [hm0] at hle hmem
  symm
  apply foldl_min_char _ _ _ hle
  · intro y hy
    obtain ⟨w, hw, rfl⟩ := List.mem_map.mp hy
    exact hsafe.2 w (hdone w (List.mem_range.mp hw))
  · rcases hmem with h | ⟨q, hq, h⟩
    · exact Or.inl h
    · right
      rw [h]
      exact List.mem_map.mpr ⟨q.1, List.mem_range.mpr (hs q hq), rfl⟩

theorem with_atomic_interleaved_eq (arr : List Int) (out : Result) (T : Int)
    (sched : List (Nat × Bool)) (hT : to_size_t T ≠ 0)
    (hall : ∀ i ∈ List.range T.toNat, (worker_local arr T i).isSome = true) :
    with_atomic_interleaved arr out T sched =
      if (List.range T.toNat).all (fun i =>
          (atomic_run (fun i => (worker_local arr T i).getD start_pair)
            (atomic_init start_pair) sched).added i &&
          decide ((atomic_run (fun i => (worker_local arr T i).getD start_pair)
            (atomic_init start_pair) sched).min.phase i = Phase.exited)) then
        some
          { sum :=
              (atomic_run (fun i => (worker_local arr T i).getD start_pair)
                (atomic_init start_pair) sched).shared_sum
            min_multiple_of_13 :=
              (atomic_run (fun i => (worker_local arr T i).getD start_pair)
                (atomic_init start_pair) sched).min.shared_min }
      else none := by
  unfold with_atomic_interleaved
  simp only [if_neg hT]
  rw [if_pos (List.all_eq_true.mpr hall)]
  rfl

/-- When every worker has performed its `fetch_add` and left the retry loop,
the shared atomics hold the sequential result, whatever the interleaving. -/
theorem atomic_run_done (arr : List Int) (T : Int) (sched : List (Nat × Bool))
    (hn : (arr.length : Int) ≤ INT_MAX) (h1 : 1 ≤ T) (h2 : T ≤ INT_MAX)
    (hs : ∀ q ∈ sched, q.1 < T.toNat)
    (hdone : ∀ w, w < T.toNat →
      (atomic_run (fun i => (worker_local arr T i).getD start_pair)
        (atomic_init start_pair) sched).added w = true ∧
      (atomic_run (fun i => (worker_local arr T i).getD start_pair)
        (atomic_init start_pair) sched).min.phase w = Phase.exited) :
    ({ sum := (atomic_run (fun i => (worker_local arr T i).getD start_pair)
          (atomic_init start_pair) sched).shared_sum,
       min_multiple_of_13 := (atomic_run (fun i => (worker_local arr T i).getD start_pair)
          (atomic_init start_pair) sched).min.shared_min } : Result) =
      arr.foldl scan_step start_pair := by
  have hloc : ∀ i ∈ List.range T.toNat, worker_local arr T i =
      some ((fun i => (worker_local arr T i).getD start_pair) i) := by
    intro i hi
    show worker_local arr T i = some ((worker_local arr T i).getD start_pair)
    rw [worker_local_eq arr T hn h1 h2 i (List.mem_range.mp hi)]
    rfl
  have hfold : ((List.range T.toNat).map
      (fun i => (worker_local arr T i).getD start_pair)).foldl mutex_merge start_pair =
      arr.foldl scan_step start_pair := by
    have ha := with_mutex_merged arr start_pair T (List.range T.toNat) _ h1 h2 hloc
    rw [with_mutex_in_order arr start_pair T hn h1 h2] at ha
    exact (Option.some.inj ha).symm
  have hsum := atomic_run_sum (fun i => (worker_local arr T i).getD start_pair) T.toNat
    start_pair sched start_pair_normal.1 hs
  obtain ⟨msched, hmin, hm, hcount⟩ :=
    atomic_run_min (fun i => (worker_local arr T i).getD start_pair) T.toNat start_pair sched hs
  generalize atomic_run (fun i => (worker_local arr T i).getD start_pair)
    (atomic_init start_pair) sched = fin at hdone hsum hmin hcount ⊢
  have hsum2 : itotal T.toNat (fun i => if fin.added i = true then
      ((worker_local arr T i).getD start_pair).sum else 0) =
      itotal T.toNat (fun i => ((worker_local arr T i).getD start_pair).sum) :=
    itotal_congr _ _ _ (fun i hi => by rw [if_pos (hdone i hi).1])
  have hfs := foldl_merge_sum ((List.range T.toNat).map
    (fun i => (worker_local arr T i).getD start_pair)) start_pair start_pair_normal.1
  rw [map_locals_sum] at hfs
  have hfm := foldl_merge_min ((List.range T.toNat).map
    (fun i => (worker_local arr T i).getD start_pair)) start_pair
  rw [map_locals_min] at hfm
  have hfinal := min_run_final (fun i => ((worker_local arr T i).getD start_pair).min_multiple_of_13)
    T.toNat start_pair.min_multiple_of_13 msched hm
    (fun w hw => by rw [← hmin]; exact (hdone w hw).2)
  rw [← hmin] at hfinal
  rw [← hfold]
  have heta : ∀ r : Result, r = { sum := r.sum, min_multiple_of_13 := r.min_multiple_of_13 } :=
    fun r => rfl
  rw [heta (List.foldl mutex_merge start_pair _), hfs, hfm, hsum, hsum2, hfinal]
  rfl

/-- A result of an interleaved run of the atomic reducer is the sequential
result. -/
theorem with_atomic_interleaved_some (arr : List Int) (out : Result) (T : Int)
    (sched : List (Nat × Bool)) (r : Result)
    (hn : (arr.length : Int) ≤ INT_MAX) (h1 : 1 ≤ T) (h2 : T ≤ INT_MAX)
    (hs : ∀ q ∈ sched, q.1 < T.toNat)
    (h : with_atomic_interleaved arr out T sched = some r) :
    r = arr.foldl scan_step start_pair := by
  have hall : ∀ i ∈ List.range T.toNat, (worker_local arr T i).isSome = true := by
    intro i hi
    rw [worker_local_eq arr T hn h1 h2 i (List.mem_range.mp hi)]
    rfl
  rw [with_atomic_interleaved_eq arr out T sched (to_size_t_ne_zero h1 h2) hall] at h
  split_ifs at h with hd
  have hdone : ∀ w, w < T.toNat →
      (atomic_run (fun i => (worker_local arr T i).getD start_pair)
        (atomic_init start_pair) sched).added w = true ∧
      (atomic_run (fun i => (worker_local arr T i).getD start_pair)
        (atomic_init start_pair) sched).min.phase w = Phase.exited := by
    intro w hw
    have := List.all_eq_true.mp hd w (List.mem_range.mpr hw)
    simpa using this
  rw [← Option.some.inj h]
  exact atomic_run_done arr T sched hn h1 h2 hs hdone

/-- An interleaved run in which every worker takes more than
`num_threads + 1` steps, not counting those at which its compare-exchange may
fail spuriously, has a result: the sequential one. -/
theorem with_atomic_interleaved_fair (arr : List Int) (out : Result) (T : Int)
    (sched : List (Nat × Bool))
    (hn : (arr.length : Int) ≤ INT_MAX) (h1 : 1 ≤ T) (h2 : T ≤ INT_MAX)
    (hs : ∀ q ∈ sched, q.1 < T.toNat)
    (hfair : ∀ w, w < T.toNat →
      T.toNat + 1 + spurious_steps_of w sched < steps_of w sched) :
    with_atomic_interleaved arr out T sched = some (arr.foldl scan_step start_pair) := by
  have hall : ∀ i ∈ List.range T.toNat, (worker_local arr T i).isSome = true := by
    intro i hi
    rw [worker_local_eq arr T hn h1 h2 i (List.mem_range.mp hi)]
    rfl
  obtain ⟨msched, hmin, hm, hcount⟩ :=
    atomic_run_min (fun i => (worker_local arr T i).getD start_pair) T.toNat start_pair sched hs
  have hdone : ∀ w, w < T.toNat →
      (atomic_run (fun i => (worker_local arr T i).getD start_pair)
        (atomic_init start_pair) sched).added w = true ∧
      (atomic_run (fun i => (worker_local arr T i).getD start_pair)
        (atomic_init start_pair) sched).min.phase w = Phase.exited := by
    intro w hw
    obtain ⟨c1, c2, c3⟩ := hcount w
    have hf := hfair w hw
    have hadd : (atomic_run (fun i => (worker_local arr T i).getD start_pair)
        (atomic_init start_pair) sched).added w = true := by
      cases hb : (atomic_run (fun i => (worker_local arr T i).getD start_pair)
        (atomic_init start_pair) sched).added w with
      | true => rfl
      | false =>
        have := c3 hb
        rw [hb] at c1
        simp at c1
        omega
    refine ⟨hadd, ?_⟩
    rw [hadd, if_pos rfl] at c1
    rw [hmin]
    exact min_run_progress _ T.toNat _ msched hm w hw (by omega)
  rw [with_atomic_interleaved_eq arr out T sched (to_size_t_ne_zero h1 h2) hall]
  rw [if_pos (List.all_eq_true.mpr (fun w hw => by
    have := hdone w (List.mem_range.mp hw)
    simp [this.1, this.2]))]
  rw [atomic_run_done arr T sched hn h1 h2 hs hdone]

/-! ## The claims -/

/-- C1: for a vector of at most `INT_MAX` elements and a worker count
`num_threads ≥ 1`, `with_mutex` and `with_atomic` return, for every order in
which the workers merge their local pairs (and every pattern of spurious
`compare_exchange_weak` failures), exactly the `(sum, min)` pair that
`without_parallelization` returns on the same vector. -/
theorem parallel_reducers_agree_with_sequential (arr : List Int) (out out_m out_a : Result)
    (num_threads : Int) (order_m order_a : List Nat) (fuel : Nat) (spur : Nat → List Bool)
    (hn : (arr.length : Int) ≤ INT_MAX) (h1 : 1 ≤ num_threads) (h2 : num_threads ≤ INT_MAX)
    (hperm_m : order_m.Perm (List.range num_threads.toNat))
    (hperm_a : order_a.Perm (List.range num_threads.toNat))
    (hfuel : ∀ i, (spur i).length < fuel) :
    with_mutex arr out_m num_threads order_m = some (without_parallelization arr out) ∧
      with_atomic arr out_a num_threads order_a fuel spur =
        some (without_parallelization arr out) :=
  ⟨with_mutex_correct arr out_m num_threads order_m hn h1 h2 hperm_m,
    with_atomic_correct arr out_a num_threads order_a fuel spur hn h1 h2 hperm_a hfuel⟩

theorem parallel_reducers_agree_with_sequential_witness :
    with_mutex [13, -26, 39, 1, 2, 0, 52] ⟨1, 2⟩ 3 [2, 0, 1] =
        some (without_parallelization [13, -26, 39, 1, 2, 0, 52] ⟨3, 4⟩) ∧
      with_atomic [13, -26, 39, 1, 2, 0, 52] ⟨5, 6⟩ 3 [1, 2, 0] 3 (fun _ => [true, false]) =
        some (without_parallelization [13, -26, 39, 1, 2, 0, 52] ⟨3, 4⟩) :=
  parallel_reducers_agree_with_sequential [13, -26, 39, 1, 2, 0, 52] ⟨3, 4⟩ ⟨1, 2⟩ ⟨5, 6⟩ 3
    [2, 0, 1] [1, 2, 0] 3 (fun _ => [true, false]) (by decide) (by decide) (by decide)
    (by decide) (by decide) (fun _ => show [true, false].length < 3 by decide)

/-- C2: on a vector of `int` elements, `without_parallelization` returns as
`sum` the 64-bit sum of exactly the elements divisible by 13 (the exact sum
whenever the vector has fewer than `2^32` elements), and as `min` the smallest
element divisible by 13, or `INT_MAX` when no element is divisible by 13. -/
theorem without_parallelization_spec (arr : List Int) (out : Result) (hint : AllInt arr) :
    (without_parallelization arr out).sum = to_long_long (sum_of_multiples arr) ∧
      (arr.length < 4294967296 →
        (without_parallelization arr out).sum = sum_of_multiples arr) ∧
      ((∃ x ∈ arr, (13 : Int) ∣ x) →
        (without_parallelization arr out).min_multiple_of_13 ∈ arr ∧
          (13 : Int) ∣ (without_parallelization arr out).min_multiple_of_13 ∧
          ∀ y ∈ arr, (13 : Int) ∣ y →
            (without_parallelization arr out).min_multiple_of_13 ≤ y) ∧
      ((∀ x ∈ arr, ¬ (13 : Int) ∣ x) →
        (without_parallelization arr out).min_multiple_of_13 = INT_MAX) := by
  rw [without_parallelization_eq]
  have hsum := foldl_scan_sum arr start_pair start_pair_normal.1
  have hsp : start_pair.sum = 0 := rfl
  rw [hsp, zero_add] at hsum
  obtain ⟨_, hle, hor⟩ := foldl_scan_min arr start_pair
  have hm : start_pair.min_multiple_of_13 = INT_MAX := rfl
  rw [hm] at hor
  refine ⟨hsum, ?_, ?_, ?_⟩
  · intro hlen
    rw [hsum]
    obtain ⟨hb1, hb2⟩ := sum_of_multiples_bound arr hint
    apply to_long_long_of_range
    · unfold LLONG_MIN; omega
    · unfold LLONG_MAX; omega
  · rintro ⟨x, hx, h13⟩
    have hxle := hle x hx h13
    have hxi := (hint x hx).2
    rcases hor with h | ⟨hmem, hdvd⟩
    · exfalso
      have hxeq : x = INT_MAX := le_antisymm hxi (h ▸ hxle)
      exact int_max_not_multiple (hxeq ▸ h13)
    · exact ⟨hmem, hdvd, hle⟩
  · intro hno
    rcases hor with h | ⟨hmem, hdvd⟩
    · exact h
    · exact absurd hdvd (hno _ hmem)

theorem without_parallelization_spec_witness :
    AllInt [39, -26, 5, 0, 2147483647, -2147483648] ∧
      (without_parallelization [39, -26, 5, 0, 2147483647, -2147483648] ⟨7, 7⟩).sum =
        to_long_long (sum_of_multiples [39, -26, 5, 0, 2147483647, -2147483648]) :=
  ⟨by unfold AllInt INT_MIN INT_MAX; decide,
    (without_parallelization_spec [39, -26, 5, 0, 2147483647, -2147483648] ⟨7, 7⟩
      (by unfold AllInt INT_MIN INT_MAX; decide)).1⟩

/-- C3: for a length `n ≤ INT_MAX` and a worker count `1 ≤ num_threads` (an
`int`; in particular every `num_threads ≤ n + 5`, over-subscription included),
the ranges `[start, end)` computed by the partition loop of `with_mutex` and of
`with_atomic` cover `[0, n)` with every index in exactly one range: an index
`j` lies in exactly one range when `0 ≤ j < n` and in none otherwise. -/
theorem partitions_cover_exactly_once (n : Nat) (num_threads : Int) (j : Int)
    (hn : (n : Int) ≤ INT_MAX) (h1 : 1 ≤ num_threads) (h2 : num_threads ≤ INT_MAX) :
    (with_mutex_partitions n num_threads).countP (fun p => decide (p.1 ≤ j ∧ j < p.2)) =
        (if 0 ≤ j ∧ j < (n : Int) then 1 else 0) ∧
      (with_atomic_partitions n num_threads).countP (fun p => decide (p.1 ≤ j ∧ j < p.2)) =
        (if 0 ≤ j ∧ j < (n : Int) then 1 else 0) := by
  have key : (with_mutex_partitions n num_threads).countP
      (fun p => decide (p.1 ≤ j ∧ j < p.2)) = (if 0 ≤ j ∧ j < (n : Int) then 1 else 0) := by
    rw [with_mutex_partitions_eq n num_threads hn h1 h2,
      countP_cuts (cut n num_threads.toNat) num_threads.toNat (fun i hi => cut_mono _ _ _ hi) j,
      cut_zero n num_threads.toNat (by omega), cut_last]
    rfl
  exact ⟨key, by rw [with_atomic_partitions_eq]; exact key⟩

theorem partitions_cover_exactly_once_witness :
    (with_mutex_partitions 3 8).countP (fun p => decide (p.1 ≤ 2 ∧ 2 < p.2)) =
        (if (0 : Int) ≤ 2 ∧ (2 : Int) < ((3 : Nat) : Int) then 1 else 0) ∧
      (with_atomic_partitions 3 8).countP (fun p => decide (p.1 ≤ 2 ∧ 2 < p.2)) =
        (if (0 : Int) ≤ 2 ∧ (2 : Int) < ((3 : Nat) : Int) then 1 else 0) :=
  partitions_cover_exactly_once 3 8 2 (by decide) (by decide) (by decide)

/-- C4, as stated, fails: for a vector of `2^31` elements and one worker the
conversion of `arr.size()` to `int` gives `end = -2^31`, so the last worker is
not assigned `[0, N)`. -/
theorem partition_formula_fails_beyond_int_max : ¬ PartitionFormula 2147483648 1 := by
  intro h
  have hend := h.2.2.2.1
  revert hend
  decide

/-- C4 (amended): for a length `n ≤ INT_MAX` and an `int` worker count
`num_threads ≥ 1`, with `chunk = n / num_threads`, worker `i < num_threads - 1`
is assigned exactly `[i·chunk, (i+1)·chunk)`, of length `chunk`, the last worker
is assigned `[(num_threads-1)·chunk, n)`, of length `chunk + n mod num_threads`,
and both parallel reducers compute the same ranges. -/
theorem partition_formula_holds (n : Nat) (num_threads : Int) (hn : (n : Int) ≤ INT_MAX)
    (h1 : 1 ≤ num_threads) (h2 : num_threads ≤ INT_MAX) : PartitionFormula n num_threads := by
  have hT : num_threads = ((num_threads.toNat : Nat) : Int) := by omega
  have hq : (n : Int) / num_threads = ((n / num_threads.toNat : Nat) : Int) := by
    conv_lhs => rw [hT]
    exact (Int.ofNat_ediv n num_threads.toNat).symm
  have hlast : num_threads - 1 = ((num_threads.toNat - 1 : Nat) : Int) := by omega
  have hs_last := chunk_start_eq n num_threads hn h1 h2 (num_threads.toNat - 1) (by omega)
  have he_last := chunk_end_eq n num_threads hn h1 h2 (num_threads.toNat - 1) (by omega)
  have hsucc : num_threads.toNat - 1 + 1 = num_threads.toNat := by omega
  rw [hsucc, cut_last] at he_last
  have hcut_last : cut n num_threads.toNat (num_threads.toNat - 1) =
      (num_threads.toNat - 1) * (n / num_threads.toNat) := by
    unfold cut
    rw [if_neg (by omega)]
  rw [hcut_last] at hs_last
  have hstart_last : chunk_start n num_threads (num_threads - 1) =
      (num_threads - 1) * ((n : Int) / num_threads) := by
    rw [hlast, hs_last, hq]
    push_cast
    rfl
  have hend_last : chunk_end n num_threads (num_threads - 1) = (n : Int) := by
    rw [hlast]
    exact he_last
  refine ⟨?_, ?_, hstart_last, hend_last, ?_, rfl⟩
  · rw [chunk_size_eq n num_threads hn h1 h2, hq]
  · intro i hi
    have hi1 : i < num_threads.toNat := by omega
    have hs := chunk_start_eq n num_threads hn h1 h2 i hi1
    have he := chunk_end_eq n num_threads hn h1 h2 i hi1
    have hc : cut n num_threads.toNat i = i * (n / num_threads.toNat) := by
      unfold cut
      rw [if_neg (by omega)]
    have hc1 : cut n num_threads.toNat (i + 1) = (i + 1) * (n / num_threads.toNat) := by
      unfold cut
      rw [if_neg (by omega)]
    rw [hc] at hs
    rw [hc1] at he
    rw [hs, he, hq]
    push_cast
    refine ⟨rfl, rfl, ?_⟩
    ring
  · rw [hstart_last, hend_last]
    have hdm := Int.ediv_add_emod (n : Int) num_threads
    linear_combination -hdm

theorem partition_formula_holds_witness : PartitionFormula 10 4 :=
  partition_formula_holds 10 4 (by decide) (by decide) (by decide)

/-- C5: any two orders in which the spawned workers perform their merge step
(add the local sum, lower the shared minimum when the local one is smaller)
leave the same final shared pair: the result of `with_mutex` does not depend on
the merge order, and neither does the merge of any local pairs into any shared
pair. -/
theorem with_mutex_order_independent (arr : List Int) (out : Result) (num_threads : Int)
    (order1 order2 : List Nat) (hperm1 : order1.Perm (List.range num_threads.toNat))
    (hperm2 : order2.Perm (List.range num_threads.toNat)) :
    with_mutex arr out num_threads order1 = with_mutex arr out num_threads order2 ∧
      ∀ (shared : Result) (local_pairs : Nat → Result),
        (order1.map local_pairs).foldl mutex_merge shared =
          (order2.map local_pairs).foldl mutex_merge shared := by
  refine ⟨with_mutex_perm arr out out num_threads (hperm1.trans hperm2.symm), ?_⟩
  intro shared local_pairs
  exact List.Perm.foldl_eq' ((hperm1.trans hperm2.symm).map local_pairs)
    (fun x _ y _ z => mutex_merge_right_comm z x y) shared

theorem with_mutex_order_independent_witness :
    with_mutex [13, -26, 39, 1, 2, 0, 52] ⟨1, 2⟩ 3 [2, 0, 1] =
      with_mutex [13, -26, 39, 1, 2, 0, 52] ⟨1, 2⟩ 3 [1, 2, 0] :=
  (with_mutex_order_independent [13, -26, 39, 1, 2, 0, 52] ⟨1, 2⟩ 3 [2, 0, 1] [1, 2, 0]
    (by decide) (by decide)).1

/-- C6, as stated, fails: a vector of `2^32` ones contains no multiple of 13,
yet with two workers the second worker of `with_mutex` (and of `with_atomic`)
indexes the vector at `-2^31`, so the parallel reducers yield no result. -/
theorem no_multiple_fails_beyond_int_max :
    (∀ x ∈ List.replicate 4294967296 (1 : Int), ¬ (13 : Int) ∣ x) ∧
      with_mutex (List.replicate 4294967296 (1 : Int)) ⟨0, 0⟩ 2 [0, 1] = none ∧
      ∀ (fuel : Nat) (spur : Nat → List Bool),
        with_atomic (List.replicate 4294967296 (1 : Int)) ⟨0, 0⟩ 2 [0, 1] fuel spur = none := by
  have hm := with_mutex_two_pow_32 (List.replicate 4294967296 (1 : Int)) ⟨0, 0⟩
    (List.length_replicate 4294967296 (1 : Int))
  refine ⟨?_, hm, ?_⟩
  · intro x hx
    rw [List.eq_of_mem_replicate hx]
    decide
  · intro fuel spur
    cases ha : with_atomic (List.replicate 4294967296 (1 : Int)) ⟨0, 0⟩ 2 [0, 1] fuel spur with
    | none => rfl
    | some r =>
      have := with_atomic_some _ _ _ _ _ _ r ha
      rw [hm] at this
      exact absurd this (by simp)

/-- C6 (amended): for a vector that contains no multiple of 13 (in particular
the empty vector, and any vector whose elements all lie in `[1, 12]`),
`without_parallelization` yields `sum = 0` and `min = INT_MAX`, and so do
`with_mutex` and `with_atomic` for every worker count `num_threads ≥ 1` when the
vector has at most `INT_MAX` elements. -/
theorem no_multiple_yields_sentinel (arr : List Int) (out out_m out_a : Result)
    (num_threads : Int) (order_m order_a : List Nat) (fuel : Nat) (spur : Nat → List Bool)
    (hno : (∀ x ∈ arr, ¬ (13 : Int) ∣ x) ∨ (∀ x ∈ arr, 1 ≤ x ∧ x ≤ 12))
    (h1 : 1 ≤ num_threads) (h2 : num_threads ≤ INT_MAX)
    (hperm_m : order_m.Perm (List.range num_threads.toNat))
    (hperm_a : order_a.Perm (List.range num_threads.toNat))
    (hfuel : ∀ i, (spur i).length < fuel) :
    without_parallelization arr out = { sum := 0, min_multiple_of_13 := INT_MAX } ∧
      ((arr.length : Int) ≤ INT_MAX →
        with_mutex arr out_m num_threads order_m =
            some { sum := 0, min_multiple_of_13 := INT_MAX } ∧
          with_atomic arr out_a num_threads order_a fuel spur =
            some { sum := 0, min_multiple_of_13 := INT_MAX }) := by
  have hno1 : ∀ x ∈ arr, ¬ (13 : Int) ∣ x := by
    rcases hno with h | h
    · exact h
    · exact no_multiple_of_range arr h
  have hseq : without_parallelization arr out = { sum := 0, min_multiple_of_13 := INT_MAX } := by
    rw [without_parallelization_eq, foldl_scan_no_multiple arr start_pair hno1]
    rfl
  refine ⟨hseq, fun hn => ⟨?_, ?_⟩⟩
  · rw [with_mutex_correct arr out_m num_threads order_m hn h1 h2 hperm_m,
      without_parallelization_eq, ← without_parallelization_eq arr out, hseq]
  · rw [with_atomic_correct arr out_a num_threads order_a fuel spur hn h1 h2 hperm_a hfuel,
      without_parallelization_eq, ← without_parallelization_eq arr out, hseq]

theorem no_multiple_yields_sentinel_witness :
    without_parallelization [1, 12, 5, 7] ⟨3, 4⟩ = { sum := 0, min_multiple_of_13 := INT_MAX } ∧
      ((([1, 12, 5, 7] : List Int).length : Int) ≤ INT_MAX →
        with_mutex [1, 12, 5, 7] ⟨1, 2⟩ 3 [2, 0, 1] =
            some { sum := 0, min_multiple_of_13 := INT_MAX } ∧
          with_atomic [1, 12, 5, 7] ⟨5, 6⟩ 3 [1, 2, 0] 2 (fun _ => [true]) =
            some { sum := 0, min_multiple_of_13 := INT_MAX }) :=
  no_multiple_yields_sentinel [1, 12, 5, 7] ⟨3, 4⟩ ⟨1, 2⟩ ⟨5, 6⟩ 3 [2, 0, 1] [1, 2, 0] 2
    (fun _ => [true]) (Or.inr (by decide)) (by decide) (by decide) (by decide) (by decide)
    (fun _ => show [true].length < 2 by decide)

/-- C8: for the vector `[13, 26, 39, 1, 2]` and two workers the computed
partitions are exactly `[0, 2)` and `[2, 5)`, and `without_parallelization`,
`with_mutex` and `with_atomic` each return `sum = 78` and `min = 13`: the
parallel ones for every merge order, and `with_atomic` also for every
interleaving of the atomic steps of its two workers (the `fetch_add`, the `load`
and each compare-exchange), whenever the joins return, which they do once each
worker has taken enough steps; that includes the runs in which both workers load
`INT_MAX` and the compare-exchange of one of them fails and is retried, as in
`contended_schedule`. -/
theorem concrete_scenario (out out_m out_a : Result) (order_m order_a : List Nat)
    (fuel : Nat) (spur : Nat → List Bool) (hperm_m : order_m.Perm [0, 1])
    (hperm_a : order_a.Perm [0, 1]) (hfuel : ∀ i, (spur i).length < fuel) :
    with_mutex_partitions 5 2 = [(0, 2), (2, 5)] ∧
      with_atomic_partitions 5 2 = [(0, 2), (2, 5)] ∧
      without_parallelization [13, 26, 39, 1, 2] out = { sum := 78, min_multiple_of_13 := 13 } ∧
      with_mutex [13, 26, 39, 1, 2] out_m 2 order_m =
        some { sum := 78, min_multiple_of_13 := 13 } ∧
      with_atomic [13, 26, 39, 1, 2] out_a 2 order_a fuel spur =
        some { sum := 78, min_multiple_of_13 := 13 } ∧
      (∀ sched : List (Nat × Bool), (∀ q ∈ sched, q.1 < 2) →
        (∀ r, with_atomic_interleaved [13, 26, 39, 1, 2] out_a 2 sched = some r →
          r = { sum := 78, min_multiple_of_13 := 13 }) ∧
        ((∀ w, w < 2 → 2 + 1 + spurious_steps_of w sched < steps_of w sched) →
          with_atomic_interleaved [13, 26, 39, 1, 2] out_a 2 sched =
            some { sum := 78, min_multiple_of_13 := 13 })) ∧
      with_atomic_interleaved [13, 26, 39, 1, 2] out_a 2 contended_schedule =
        some { sum := 78, min_multiple_of_13 := 13 } ∧
      (atomic_run (fun i => (worker_local [13, 26, 39, 1, 2] 2 i).getD start_pair)
        (atomic_init start_pair) contended_schedule).min.retries 0 = 1 ∧
      (atomic_run (fun i => (worker_local [13, 26, 39, 1, 2] 2 i).getD start_pair)
        (atomic_init start_pair) contended_schedule).min.spurious 0 = 0 := by
  have hseq : without_parallelization [13, 26, 39, 1, 2] out =
      { sum := 78, min_multiple_of_13 := 13 } := by
    rw [without_parallelization_eq]
    decide
  have hfold : ([13, 26, 39, 1, 2] : List Int).foldl scan_step start_pair =
      { sum := 78, min_multiple_of_13 := 13 } := by decide
  refine ⟨by decide, by decide, hseq, ?_, ?_, ?_, ?_, by decide, by decide⟩
  · rw [with_mutex_correct [13, 26, 39, 1, 2] out_m 2 order_m (by decide) (by decide)
      (by decide) hperm_m, without_parallelization_eq, ← without_parallelization_eq _ out, hseq]
  · rw [with_atomic_correct [13, 26, 39, 1, 2] out_a 2 order_a fuel spur (by decide)
      (by decide) (by decide) hperm_a hfuel, without_parallelization_eq,
      ← without_parallelization_eq _ out, hseq]
  · intro sched hs
    refine ⟨?_, ?_⟩
    · intro r hr
      rw [with_atomic_interleaved_some [13, 26, 39, 1, 2] out_a 2 sched r (by decide)
        (by decide) (by decide) hs hr, hfold]
    · intro hfair
      rw [with_atomic_interleaved_fair [13, 26, 39, 1, 2] out_a 2 sched (by decide)
        (by decide) (by decide) hs hfair, hfold]
  · rw [with_atomic_interleaved_fair [13, 26, 39, 1, 2] out_a 2 contended_schedule (by decide)
      (by decide) (by decide) (by decide) (by decide), hfold]

theorem concrete_scenario_witness :
    with_mutex [13, 26, 39, 1, 2] ⟨1, 2⟩ 2 [1, 0] =
        some { sum := 78, min_multiple_of_13 := 13 } ∧
      with_atomic [13, 26, 39, 1, 2] ⟨5, 6⟩ 2 [1, 0] 3 (fun _ => [true, true]) =
        some { sum := 78, min_multiple_of_13 := 13 } ∧
      with_atomic_interleaved [13, 26, 39, 1, 2] ⟨5, 6⟩ 2 contended_schedule =
        some { sum := 78, min_multiple_of_13 := 13 } :=
  ⟨(concrete_scenario ⟨3, 4⟩ ⟨1, 2⟩ ⟨5, 6⟩ [1, 0] [1, 0] 3 (fun _ => [true, true]) (by decide)
      (by decide) (fun _ => show [true, true].length < 3 by decide)).2.2.2.1,
    (concrete_scenario ⟨3, 4⟩ ⟨1, 2⟩ ⟨5, 6⟩ [1, 0] [1, 0] 3 (fun _ => [true, true]) (by decide)
      (by decide) (fun _ => show [true, true].length < 3 by decide)).2.2.2.2.1,
    (concrete_scenario ⟨3, 4⟩ ⟨1, 2⟩ ⟨5, 6⟩ [1, 0] [1, 0] 3 (fun _ => [true, true]) (by decide)
      (by decide) (fun _ => show [true, true].length < 3 by decide)).2.2.2.2.2.2.1⟩

/-- C9: for the vector `[5, 26, 7]` and every worker count in `{1, 2, 3}`, every
reducer returns `sum = 26` and `min = 26` (the parallel ones for every merge
order). -/
theorem single_qualifying_element (out out_m out_a : Result) (num_threads : Int)
    (order_m order_a : List Nat) (fuel : Nat) (spur : Nat → List Bool)
    (hT : num_threads = 1 ∨ num_threads = 2 ∨ num_threads = 3)
    (hperm_m : order_m.Perm (List.range num_threads.toNat))
    (hperm_a : order_a.Perm (List.range num_threads.toNat))
    (hfuel : ∀ i, (spur i).length < fuel) :
    without_parallelization [5, 26, 7] out = { sum := 26, min_multiple_of_13 := 26 } ∧
      with_mutex [5, 26, 7] out_m num_threads order_m =
        some { sum := 26, min_multiple_of_13 := 26 } ∧
      with_atomic [5, 26, 7] out_a num_threads order_a fuel spur =
        some { sum := 26, min_multiple_of_13 := 26 } := by
  have hseq : without_parallelization [5, 26, 7] out =
      { sum := 26, min_multiple_of_13 := 26 } := by
    rw [without_parallelization_eq]
    decide
  have h1 : 1 ≤ num_threads := by omega
  have h2 : num_threads ≤ INT_MAX := by
    unfold INT_MAX
    omega
  refine ⟨hseq, ?_, ?_⟩
  · rw [with_mutex_correct [5, 26, 7] out_m num_threads order_m (by decide) h1 h2 hperm_m,
      without_parallelization_eq, ← without_parallelization_eq _ out, hseq]
  · rw [with_atomic_correct [5, 26, 7] out_a num_threads order_a fuel spur (by decide) h1 h2
      hperm_a hfuel, without_parallelization_eq, ← without_parallelization_eq _ out, hseq]

theorem single_qualifying_element_witness :
    with_mutex [5, 26, 7] ⟨1, 2⟩ 3 [2, 0, 1] = some { sum := 26, min_multiple_of_13 := 26 } ∧
      with_atomic [5, 26, 7] ⟨5, 6⟩ 3 [1, 2, 0] 2 (fun _ => [true]) =
        some { sum := 26, min_multiple_of_13 := 26 } :=
  (single_qualifying_element ⟨3, 4⟩ ⟨1, 2⟩ ⟨5, 6⟩ 3 [2, 0, 1] [1, 2, 0] 2 (fun _ => [true])
    (Or.inr (Or.inr rfl)) (by decide) (by decide)
    (fun _ => show [true].length < 2 by decide)).2

/-- C10: when the (`int`) worker count exceeds the length of the vector,
`chunk_size` is `0`, every worker but the last is assigned the empty range
`[0, 0)` and the last worker the whole range `[0, N)`; a worker with the empty
range has the local pair `(0, INT_MAX)` and its merge (under the lock, or by
`fetch_add` and the retry loop) leaves a shared pair unchanged; both parallel
reducers return the sequential result. -/
theorem oversubscription_is_neutral (arr : List Int) (out out_m out_a : Result)
    (num_threads : Int) (order_m order_a : List Nat) (fuel : Nat) (spur : Nat → List Bool)
    (hT : (arr.length : Int) < num_threads) (h2 : num_threads ≤ INT_MAX)
    (hperm_m : order_m.Perm (List.range num_threads.toNat))
    (hperm_a : order_a.Perm (List.range num_threads.toNat))
    (hfuel : ∀ i, (spur i).length < fuel) :
    chunk_size arr.length num_threads = 0 ∧
      (∀ i : Nat, (i : Int) < num_threads - 1 →
        chunk_start arr.length num_threads (i : Int) = 0 ∧
          chunk_end arr.length num_threads (i : Int) = 0) ∧
      (chunk_start arr.length num_threads (num_threads - 1) = 0 ∧
        chunk_end arr.length num_threads (num_threads - 1) = (arr.length : Int)) ∧
      (∀ i : Nat, (i : Int) < num_threads - 1 →
        process_chunk_local arr (chunk_start arr.length num_threads (i : Int))
            (chunk_end arr.length num_threads (i : Int)) =
          some { sum := 0, min_multiple_of_13 := INT_MAX } ∧
        ∀ shared : Result, shared.WellTyped →
          with_mutex_process_chunk arr shared (chunk_start arr.length num_threads (i : Int))
              (chunk_end arr.length num_threads (i : Int)) = some shared ∧
            with_atomic_process_chunk arr fuel (spur i) shared
              (chunk_start arr.length num_threads (i : Int))
              (chunk_end arr.length num_threads (i : Int)) = some shared) ∧
      with_mutex arr out_m num_threads order_m = some (without_parallelization arr out) ∧
      with_atomic arr out_a num_threads order_a fuel spur =
        some (without_parallelization arr out) := by
  have hn : (arr.length : Int) ≤ INT_MAX := by omega
  have h1 : 1 ≤ num_threads := by omega
  refine ⟨chunk_size_oversubscribed _ _ hT h2, ?_, ?_, ?_,
    with_mutex_correct arr out_m num_threads order_m hn h1 h2 hperm_m,
    with_atomic_correct arr out_a num_threads order_a fuel spur hn h1 h2 hperm_a hfuel⟩
  · intro i hi
    exact ⟨chunk_start_oversubscribed _ _ hT h2 _,
      chunk_end_oversubscribed _ _ hT h2 _ (by omega)⟩
  · exact ⟨chunk_start_oversubscribed _ _ hT h2 _, chunk_end_last _ _ hn⟩
  · intro i hi
    have hloc : process_chunk_local arr (chunk_start arr.length num_threads (i : Int))
        (chunk_end arr.length num_threads (i : Int)) = some start_pair := by
      rw [chunk_start_oversubscribed _ _ hT h2, chunk_end_oversubscribed _ _ hT h2 _ (by omega)]
      exact process_chunk_local_empty arr 0 0 (le_refl _)
    refine ⟨hloc, fun shared hs => ⟨?_, ?_⟩⟩
    · unfold with_mutex_process_chunk
      rw [hloc, Option.map_some', merge_start_pair (normal_of_wellTyped hs)]
    · unfold with_atomic_process_chunk
      rw [hloc, Option.some_bind]
      exact atomic_merge_start_pair fuel (spur i) (normal_of_wellTyped hs)
        (Nat.lt_of_le_of_lt (Nat.zero_le _) (hfuel i))

theorem oversubscription_is_neutral_witness :
    chunk_size ([26, 5] : List Int).length 4 = 0 ∧
      with_mutex [26, 5] ⟨1, 2⟩ 4 [3, 1, 0, 2] = some (without_parallelization [26, 5] ⟨3, 4⟩) :=
  ⟨(oversubscription_is_neutral [26, 5] ⟨3, 4⟩ ⟨1, 2⟩ ⟨5, 6⟩ 4 [3, 1, 0, 2] [0, 1, 2, 3] 2
      (fun _ => [true]) (by decide) (by decide) (by decide) (by decide)
      (fun _ => show [true].length < 2 by decide)).1,
    (oversubscription_is_neutral [26, 5] ⟨3, 4⟩ ⟨1, 2⟩ ⟨5, 6⟩ 4 [3, 1, 0, 2] [0, 1, 2, 3] 2
      (fun _ => [true]) (by decide) (by decide) (by decide) (by decide)
      (fun _ => show [true].length < 2 by decide)).2.2.2.2.1⟩

/-- C11: for every vector and every range `0 ≤ start ≤ end ≤ arr.size()`, the
local pair computed by `process_chunk(start, end)` before any merge, in
`with_mutex` and in `with_atomic` alike, is the pair `without_parallelization`
returns on the sub-vector `arr[start..end)`; it is this pair that the worker of
either reducer then merges into the shared pair. -/
theorem process_chunk_local_is_sequential (arr : List Int) (out shared : Result)
    (start end_ : Int) (fuel : Nat) (spur : List Bool)
    (h0 : 0 ≤ start) (h1 : start ≤ end_) (h2 : end_ ≤ (arr.length : Int)) :
    process_chunk_local arr start end_ =
        some (without_parallelization (slice arr start.toNat end_.toNat) out) ∧
      with_mutex_process_chunk arr shared start end_ =
        some (mutex_merge shared
          (without_parallelization (slice arr start.toNat end_.toNat) out)) ∧
      with_atomic_process_chunk arr fuel spur shared start end_ =
        atomic_merge fuel spur shared
          (without_parallelization (slice arr start.toNat end_.toNat) out) := by
  have hs : start = ((start.toNat : Nat) : Int) := by omega
  have he : end_ = ((end_.toNat : Nat) : Int) := by omega
  have hloc : process_chunk_local arr start end_ =
      some (without_parallelization (slice arr start.toNat end_.toNat) out) := by
    conv_lhs => rw [hs, he]
    rw [process_chunk_local_eq arr start.toNat end_.toNat (by omega) (by omega),
      without_parallelization_eq]
  refine ⟨hloc, ?_, ?_⟩
  · unfold with_mutex_process_chunk
    rw [hloc]
    rfl
  · unfold with_atomic_process_chunk
    rw [hloc]
    rfl

theorem process_chunk_local_is_sequential_witness :
    process_chunk_local [13, -26, 39, 1, 2, 0, 52] 1 5 =
      some (without_parallelization
        (slice [13, -26, 39, 1, 2, 0, 52] (1 : Int).toNat (5 : Int).toNat) ⟨3, 4⟩) :=
  (process_chunk_local_is_sequential [13, -26, 39, 1, 2, 0, 52] ⟨3, 4⟩ ⟨5, 6⟩ 1 5 2 [true]
    (by decide) (by decide) (by decide)).1

/-- C15, as stated, fails for the parallel reducers: a vector of `2^31` elements
all equal to `13` contains a multiple of 13, yet with one worker `with_mutex`
(and `with_atomic`) converts `arr.size()` to the `int` `-2^31`, scans nothing and
returns `min = INT_MAX`. -/
theorem sentinel_ambiguous_beyond_int_max :
    AllInt (List.replicate 2147483648 (13 : Int)) ∧
      (∃ x ∈ List.replicate 2147483648 (13 : Int), (13 : Int) ∣ x) ∧
      with_mutex (List.replicate 2147483648 (13 : Int)) ⟨0, 0⟩ 1 [0] =
        some { sum := 0, min_multiple_of_13 := INT_MAX } ∧
      with_atomic (List.replicate 2147483648 (13 : Int)) ⟨0, 0⟩ 1 [0] 1 (fun _ => []) =
        some { sum := 0, min_multiple_of_13 := INT_MAX } := by
  have hm := with_mutex_two_pow_31 (List.replicate 2147483648 (13 : Int)) ⟨0, 0⟩
    (List.length_replicate 2147483648 (13 : Int))
  refine ⟨?_, ⟨13, ?_, by decide⟩, hm, ?_⟩
  · intro x hx
    rw [List.eq_of_mem_replicate hx]
    unfold INT_MIN INT_MAX
    decide
  · exact List.mem_replicate.mpr ⟨by decide, rfl⟩
  · rw [with_atomic_eq_with_mutex _ _ _ _ _ _ (fun _ _ => by decide)]
    exact hm

/-- C15 (amended): `INT_MAX` is not divisible by 13 (`INT_MAX % 13 = 10`), so for
a vector of `int` elements the `min` returned by `without_parallelization` is
`INT_MAX` if and only if no element is divisible by 13, and when an element is
divisible by 13, `min` is an element of the vector, is divisible by 13 and is at
most every element divisible by 13; the same holds for the pair returned by
`with_mutex` and `with_atomic`, for every worker count `num_threads ≥ 1`, when the
vector has at most `INT_MAX` elements: for every merge order, and for
`with_atomic` also for every interleaving of the atomic steps of its workers
(failed and retried compare-exchanges included), whenever the joins return,
which they do once each worker has taken enough steps. -/
theorem sentinel_unambiguous (arr : List Int) (out out_m out_a : Result)
    (num_threads : Int) (order_m order_a : List Nat) (fuel : Nat) (spur : Nat → List Bool)
    (hint : AllInt arr) (h1 : 1 ≤ num_threads) (h2 : num_threads ≤ INT_MAX)
    (hperm_m : order_m.Perm (List.range num_threads.toNat))
    (hperm_a : order_a.Perm (List.range num_threads.toNat))
    (hfuel : ∀ i, (spur i).length < fuel) :
    ¬ (13 : Int) ∣ INT_MAX ∧ Int.tmod INT_MAX 13 = 10 ∧
      ((without_parallelization arr out).min_multiple_of_13 = INT_MAX ↔
        ∀ x ∈ arr, ¬ (13 : Int) ∣ x) ∧
      ((∃ x ∈ arr, (13 : Int) ∣ x) →
        (without_parallelization arr out).min_multiple_of_13 ∈ arr ∧
          (13 : Int) ∣ (without_parallelization arr out).min_multiple_of_13 ∧
          ∀ y ∈ arr, (13 : Int) ∣ y →
            (without_parallelization arr out).min_multiple_of_13 ≤ y) ∧
      ((arr.length : Int) ≤ INT_MAX →
        ∃ r : Result, with_mutex arr out_m num_threads order_m = some r ∧
          with_atomic arr out_a num_threads order_a fuel spur = some r ∧
          (r.min_multiple_of_13 = INT_MAX ↔ ∀ x ∈ arr, ¬ (13 : Int) ∣ x) ∧
          ((∃ x ∈ arr, (13 : Int) ∣ x) →
            r.min_multiple_of_13 ∈ arr ∧ (13 : Int) ∣ r.min_multiple_of_13 ∧
              ∀ y ∈ arr, (13 : Int) ∣ y → r.min_multiple_of_13 ≤ y) ∧
          ∀ sched : List (Nat × Bool), (∀ q ∈ sched, q.1 < num_threads.toNat) →
            (∀ r1, with_atomic_interleaved arr out_a num_threads sched = some r1 → r1 = r) ∧
            ((∀ w, w < num_threads.toNat →
                num_threads.toNat + 1 + spurious_steps_of w sched < steps_of w sched) →
              with_atomic_interleaved arr out_a num_threads sched = some r)) := by
  obtain ⟨hiff, hex⟩ := scan_min_spec arr hint
  refine ⟨int_max_not_multiple, by decide, ?_, ?_, ?_⟩
  · rw [without_parallelization_eq]
    exact hiff
  · rw [without_parallelization_eq]
    exact hex
  · intro hn
    refine ⟨arr.foldl scan_step start_pair, ?_, ?_, hiff, hex, ?_⟩
    · rw [with_mutex_correct arr out_m num_threads order_m hn h1 h2 hperm_m,
        without_parallelization_eq]
    · rw [with_atomic_correct arr out_a num_threads order_a fuel spur hn h1 h2 hperm_a hfuel,
        without_parallelization_eq]
    · intro sched hs
      exact ⟨fun r1 hr1 =>
          with_atomic_interleaved_some arr out_a num_threads sched r1 hn h1 h2 hs hr1,
        fun hfair => with_atomic_interleaved_fair arr out_a num_threads sched hn h1 h2 hs hfair⟩

theorem sentinel_unambiguous_witness :
    ((without_parallelization [39, -26, 5, 0, 2147483647] ⟨7, 7⟩).min_multiple_of_13 =
        INT_MAX ↔ ∀ x ∈ ([39, -26, 5, 0, 2147483647] : List Int), ¬ (13 : Int) ∣ x) ∧
      ∃ r : Result,
        with_atomic_interleaved [39, -26, 5, 0, 2147483647] ⟨3, 4⟩ 2 contended_schedule =
            some r ∧
          r.min_multiple_of_13 ∈ ([39, -26, 5, 0, 2147483647] : List Int) ∧
          ∀ y ∈ ([39, -26, 5, 0, 2147483647] : List Int), (13 : Int) ∣ y →
            r.min_multiple_of_13 ≤ y := by
  have h := sentinel_unambiguous [39, -26, 5, 0, 2147483647] ⟨7, 7⟩ ⟨1, 2⟩ ⟨3, 4⟩ 2 [1, 0]
    [0, 1] 2 (fun _ => [true]) (by unfold AllInt INT_MIN INT_MAX; decide) (by decide)
    (by decide) (by decide) (by decide) (fun _ => show [true].length < 2 by decide)
  obtain ⟨r, _, _, _, hex, hsched⟩ := h.2.2.2.2 (by decide)
  have hq : ∃ x ∈ ([39, -26, 5, 0, 2147483647] : List Int), (13 : Int) ∣ x :=
    ⟨39, by decide, by decide⟩
  exact ⟨h.2.2.1, r, (hsched contended_schedule (by decide)).2 (by decide), (hex hq).1,
    (hex hq).2.2⟩

/-- C17: for a vector of `N ≤ INT_MAX` elements and an `int` worker count
`num_threads ≥ 1` the partition arithmetic is safe: the divisor of
`arr.size() / num_threads` is not zero; for every worker `0 ≤ i < num_threads`
the product `i * chunk_size` and the sum `start + chunk_size` lie between `0`
and `N`, so they are the values the `int` arithmetic computes; the range
satisfies `0 ≤ start ≤ end ≤ N`; and every access `arr[j]` with
`start ≤ j < end` is within bounds, so the local phase has a result. -/
theorem partition_arithmetic_safe (arr : List Int) (num_threads : Int)
    (hn : (arr.length : Int) ≤ INT_MAX) (h1 : 1 ≤ num_threads)
    (h2 : num_threads ≤ INT_MAX) :
    to_size_t num_threads ≠ 0 ∧
      ∀ i : Nat, (i : Int) < num_threads →
        (0 ≤ (i : Int) * chunk_size arr.length num_threads ∧
          (i : Int) * chunk_size arr.length num_threads ≤ (arr.length : Int) ∧
          chunk_start arr.length num_threads (i : Int) =
            (i : Int) * chunk_size arr.length num_threads) ∧
        (0 ≤ chunk_start arr.length num_threads (i : Int) +
            chunk_size arr.length num_threads ∧
          chunk_start arr.length num_threads (i : Int) +
            chunk_size arr.length num_threads ≤ (arr.length : Int) ∧
          to_int (chunk_start arr.length num_threads (i : Int) +
            chunk_size arr.length num_threads) =
              chunk_start arr.length num_threads (i : Int) +
                chunk_size arr.length num_threads) ∧
        (0 ≤ chunk_start arr.length num_threads (i : Int) ∧
          chunk_start arr.length num_threads (i : Int) ≤
            chunk_end arr.length num_threads (i : Int) ∧
          chunk_end arr.length num_threads (i : Int) ≤ (arr.length : Int)) ∧
        (∀ j : Int, chunk_start arr.length num_threads (i : Int) ≤ j →
          j < chunk_end arr.length num_threads (i : Int) → ∃ x, at_index arr j = some x) ∧
        ∃ r, worker_local arr num_threads i = some r := by
  refine ⟨to_size_t_ne_zero h1 h2, ?_⟩
  intro i hi
  have hit : i < num_threads.toNat := by omega
  have hcs := chunk_size_eq arr.length num_threads hn h1 h2
  have hs := chunk_start_eq arr.length num_threads hn h1 h2 i hit
  have he := chunk_end_eq arr.length num_threads hn h1 h2 i hit
  have hc : cut arr.length num_threads.toNat i = i * (arr.length / num_threads.toNat) := by
    unfold cut
    rw [if_neg (by omega)]
  have hmono := cut_mono arr.length num_threads.toNat i hit
  have hle := cut_le arr.length num_threads.toNat (i + 1) (by omega)
  have hle0 := cut_le arr.length num_threads.toNat i (by omega)
  have hprod : (i : Int) * chunk_size arr.length num_threads =
      ((cut arr.length num_threads.toNat i : Nat) : Int) := by
    rw [hcs, hc]
    push_cast
    rfl
  have hsum_le : (i + 1) * (arr.length / num_threads.toNat) ≤ arr.length :=
    calc (i + 1) * (arr.length / num_threads.toNat)
        ≤ num_threads.toNat * (arr.length / num_threads.toNat) :=
          Nat.mul_le_mul_right _ (by omega)
      _ ≤ arr.length := Nat.mul_div_le _ _
  have hsum : chunk_start arr.length num_threads (i : Int) +
      chunk_size arr.length num_threads =
        (((i + 1) * (arr.length / num_threads.toNat) : Nat) : Int) := by
    rw [hs, hcs, hc]
    push_cast
    ring
  refine ⟨⟨?_, ?_, ?_⟩, ⟨?_, ?_, ?_⟩, ⟨?_, ?_, ?_⟩, ?_, ?_⟩
  · rw [hprod]
    exact Int.natCast_nonneg _
  · rw [hprod]
    exact_mod_cast hle0
  · rw [hs, hprod]
  · rw [hsum]
    exact Int.natCast_nonneg _
  · rw [hsum]
    exact_mod_cast hsum_le
  · rw [hsum]
    apply to_int_of_range
    · have := Int.natCast_nonneg ((i + 1) * (arr.length / num_threads.toNat))
      unfold INT_MIN
      omega
    · have : ((((i + 1) * (arr.length / num_threads.toNat) : Nat) : Int)) ≤
          (arr.length : Int) := by exact_mod_cast hsum_le
      omega
  · rw [hs]
    exact Int.natCast_nonneg _
  · rw [hs, he]
    exact_mod_cast hmono
  · rw [he]
    exact_mod_cast hle
  · intro j hj1 hj2
    rw [hs] at hj1
    rw [he] at hj2
    exact at_index_some arr j (by omega) (by omega)
  · exact ⟨_, worker_local_eq arr num_threads hn h1 h2 i hit⟩

theorem partition_arithmetic_safe_witness :
    to_size_t 3 ≠ 0 ∧ ∃ r, worker_local [13, -26, 39, 1, 2, 0, 52] 3 2 = some r :=
  ⟨(partition_arithmetic_safe [13, -26, 39, 1, 2, 0, 52] 3 (by decide) (by decide)
      (by decide)).1,
    ((partition_arithmetic_safe [13, -26, 39, 1, 2, 0, 52] 3 (by decide) (by decide)
      (by decide)).2 2 (by decide)).2.2.2.2⟩

/-- C18: with the merge step `merge((s1, m1), (s2, m2)) = (s1 + s2, if m2 < m1
then m2 else m1)` (64-bit wrapping addition), `without_parallelization` maps the
concatenation of two vectors to the merge of their results; the merge is
associative and commutative, and `(0, INT_MAX)` is its identity on the pairs of
a `long long` and an `int`. -/
theorem reduction_is_monoid_homomorphism :
    (∀ s1 m1 s2 m2 : Int, mutex_merge ⟨s1, m1⟩ ⟨s2, m2⟩ =
        ⟨to_long_long (s1 + s2), if m2 < m1 then m2 else m1⟩) ∧
      (∀ (xs ys : List Int) (out : Result), without_parallelization (xs ++ ys) out =
        mutex_merge (without_parallelization xs out) (without_parallelization ys out)) ∧
      (∀ a b c : Result, mutex_merge (mutex_merge a b) c = mutex_merge a (mutex_merge b c)) ∧
      (∀ a b : Result, mutex_merge a b = mutex_merge b a) ∧
      (∀ a : Result, a.WellTyped →
        mutex_merge a { sum := 0, min_multiple_of_13 := INT_MAX } = a ∧
          mutex_merge { sum := 0, min_multiple_of_13 := INT_MAX } a = a) := by
  refine ⟨fun _ _ _ _ => rfl, ?_, mutex_merge_assoc, mutex_merge_comm, ?_⟩
  · intro xs ys out
    rw [without_parallelization_eq, without_parallelization_eq, without_parallelization_eq,
      List.foldl_append]
    exact foldl_scan_merge ys (foldl_scan_normal xs start_pair_normal)
  · intro a ha
    exact ⟨merge_start_pair (normal_of_wellTyped ha), start_pair_merge (normal_of_wellTyped ha)⟩

theorem reduction_is_monoid_homomorphism_witness :
    mutex_merge ⟨-5, 26⟩ { sum := 0, min_multiple_of_13 := INT_MAX } = ⟨-5, 26⟩ ∧
      mutex_merge { sum := 0, min_multiple_of_13 := INT_MAX } ⟨-5, 26⟩ = ⟨-5, 26⟩ :=
  reduction_is_monoid_homomorphism.2.2.2.2 ⟨-5, 26⟩
    (by unfold Result.WellTyped LLONG_MIN LLONG_MAX INT_MIN INT_MAX; decide)

/-- C12: in `with_mutex`, with the merge steps as the transitions of the shared
pair from `(0, INT_MAX)`: after the workers of `merged` have merged, the shared
`sum` is the (64-bit) sum of their local sums, which is their exact sum when
the workers are distinct and the vector has at most `INT_MAX` elements, all
`int`; the shared `min` is the minimum of `INT_MAX` and their local minima; a
further merge of a worker `w` never increases the shared `min` and leaves it at
most the local minimum of `w`. -/
theorem mutex_shared_state_invariant (arr : List Int) (out : Result) (num_threads : Int)
    (merged : List Nat) (locals : Nat → Result)
    (h1 : 1 ≤ num_threads) (h2 : num_threads ≤ INT_MAX)
    (hloc : ∀ i ∈ merged, worker_local arr num_threads i = some (locals i)) :
    ∃ s : Result, with_mutex arr out num_threads merged = some s ∧
      s.sum = to_long_long ((merged.map (fun i => (locals i).sum)).sum) ∧
      (AllInt arr → (arr.length : Int) ≤ INT_MAX → merged.Nodup →
        (∀ i ∈ merged, i < num_threads.toNat) →
        s.sum = (merged.map (fun i => (locals i).sum)).sum) ∧
      s.min_multiple_of_13 =
        (merged.map (fun i => (locals i).min_multiple_of_13)).foldl min INT_MAX ∧
      ∀ (w : Nat) (l : Result), worker_local arr num_threads w = some l →
        with_mutex arr out num_threads (merged ++ [w]) = some (mutex_merge s l) ∧
          (mutex_merge s l).min_multiple_of_13 ≤ s.min_multiple_of_13 ∧
          (mutex_merge s l).min_multiple_of_13 ≤ l.min_multiple_of_13 := by
  have hrun := with_mutex_merged arr out num_threads merged locals h1 h2 hloc
  have hsum := foldl_merge_sum (merged.map locals) start_pair start_pair_normal.1
  have hsp : start_pair.sum = 0 := rfl
  rw [hsp, zero_add, map_locals_sum] at hsum
  have hmin := foldl_merge_min (merged.map locals) start_pair
  have hsm : start_pair.min_multiple_of_13 = INT_MAX := rfl
  rw [hsm, map_locals_min] at hmin
  refine ⟨_, hrun, hsum, ?_, hmin, ?_⟩
  · intro hint hn hnd hlt
    rw [hsum]
    obtain ⟨hb1, hb2⟩ := merged_sum_bound arr num_threads hint hn h1 h2 merged locals hnd hlt hloc
    exact to_long_long_of_range hb1 hb2
  · intro w l hl
    exact ⟨with_mutex_snoc arr out num_threads merged w _ l hrun hl,
      mutex_merge_min_le _ l⟩

theorem mutex_shared_state_invariant_witness :
    ∃ s : Result, with_mutex [13, -26, 39, 1, 2, 0, 52] ⟨1, 2⟩ 3 [2, 0] = some s ∧
      s.sum = to_long_long (([2, 0].map (fun i =>
        ((fun i => if i = 2 then (⟨52, 0⟩ : Result) else ⟨-13, -26⟩) i).sum)).sum) := by
  obtain ⟨s, hs, hsum, _⟩ := mutex_shared_state_invariant [13, -26, 39, 1, 2, 0, 52] ⟨1, 2⟩ 3
    [2, 0] (fun i => if i = 2 then (⟨52, 0⟩ : Result) else ⟨-13, -26⟩) (by decide) (by decide)
    (by decide)
  exact ⟨s, hs, hsum⟩

/-- C16: for a vector of at most `INT_MAX` elements, all `int`, no 64-bit
accumulator leaves `[-2^63, 2^63 - 1]`: at every element the `sum` of
`without_parallelization` is the exact sum of the multiples of 13 scanned so
far and adding the element stays in range; so it is for every `local_sum` at
every index of every worker's range, and for the shared `sum` of `with_mutex` and
`with_atomic` after any distinct workers have merged and one more merges. The
sum each reducer returns is the exact sum of the elements divisible by 13. -/
theorem accumulators_never_overflow (arr : List Int) (out out_m out_a : Result)
    (num_threads : Int) (order_m order_a : List Nat) (fuel : Nat) (spur : Nat → List Bool)
    (hint : AllInt arr) (hn : (arr.length : Int) ≤ INT_MAX)
    (h1 : 1 ≤ num_threads) (h2 : num_threads ≤ INT_MAX)
    (hperm_m : order_m.Perm (List.range num_threads.toNat))
    (hperm_a : order_a.Perm (List.range num_threads.toNat))
    (hfuel : ∀ i, (spur i).length < fuel) :
    (∀ (pre : List Int) (x : Int) (post : List Int), arr = pre ++ x :: post →
        (without_parallelization pre out).sum = sum_of_multiples pre ∧
          LLONG_MIN ≤ (without_parallelization pre out).sum + x ∧
          (without_parallelization pre out).sum + x ≤ LLONG_MAX) ∧
      (∀ (i : Nat) (j : Int), (i : Int) < num_threads →
        chunk_start arr.length num_threads (i : Int) ≤ j →
        j < chunk_end arr.length num_threads (i : Int) →
        ∃ (acc : Result) (x : Int),
          process_chunk_local arr (chunk_start arr.length num_threads (i : Int)) j = some acc ∧
            at_index arr j = some x ∧
            worker_local arr num_threads i =
              chunk_loop arr (chunk_end arr.length num_threads (i : Int) - j).toNat j acc ∧
            acc.sum = sum_of_multiples
              (slice arr (chunk_start arr.length num_threads (i : Int)).toNat j.toNat) ∧
            LLONG_MIN ≤ acc.sum + x ∧ acc.sum + x ≤ LLONG_MAX) ∧
      (∀ (merged : List Nat) (w : Nat), (w :: merged).Nodup →
        (∀ i ∈ w :: merged, i < num_threads.toNat) →
        ∃ s l : Result, with_mutex arr out_m num_threads merged = some s ∧
          with_atomic arr out_a num_threads merged fuel spur = some s ∧
          worker_local arr num_threads w = some l ∧
          s.sum = (merged.map (fun i => sum_of_multiples
            (slice arr (cut arr.length num_threads.toNat i)
              (cut arr.length num_threads.toNat (i + 1))))).sum ∧
          l.sum = sum_of_multiples
            (slice arr (cut arr.length num_threads.toNat w)
              (cut arr.length num_threads.toNat (w + 1))) ∧
          LLONG_MIN ≤ s.sum + l.sum ∧ s.sum + l.sum ≤ LLONG_MAX) ∧
      (without_parallelization arr out).sum = sum_of_multiples arr ∧
      ∃ r : Result, with_mutex arr out_m num_threads order_m = some r ∧
        with_atomic arr out_a num_threads order_a fuel spur = some r ∧
        r.sum = sum_of_multiples arr := by
  have hseq : (without_parallelization arr out).sum = sum_of_multiples arr := by
    rw [without_parallelization_eq]
    exact foldl_scan_sum_exact arr hint hn
  refine ⟨?_, ?_, ?_, hseq, ?_⟩
  · intro pre x post harr
    rw [without_parallelization_eq]
    have hpre : AllInt pre := allInt_append_left (harr ▸ hint)
    have hx : INT_MIN ≤ x ∧ x ≤ INT_MAX := hint x (by rw [harr]; simp)
    have hlen : pre.length < arr.length := by
      rw [harr, List.length_append, List.length_cons]
      omega
    exact scan_prefix_in_range pre x arr.length hpre hx hlen hn
  · intro i j hi hj1 hj2
    exact local_phase_at arr num_threads hint hn h1 h2 i hi j hj1 hj2
  · intro merged w hnd hlt
    obtain ⟨s, l, hs, hl, hsum, hlsum, hr1, hr2⟩ :=
      shared_sum_at arr out_m num_threads hint hn h1 h2 merged w hnd hlt
    refine ⟨s, l, hs, ?_, hl, hsum, hlsum, hr1, hr2⟩
    rw [with_atomic_eq_with_mutex arr out_a num_threads merged fuel spur (fun i _ => hfuel i),
      ← hs]
    exact with_mutex_perm arr out_a out_m num_threads (List.Perm.refl merged)
  · refine ⟨without_parallelization arr out,
      with_mutex_correct arr out_m num_threads order_m hn h1 h2 hperm_m,
      with_atomic_correct arr out_a num_threads order_a fuel spur hn h1 h2 hperm_a hfuel,
      hseq⟩

theorem accumulators_never_overflow_witness :
    (without_parallelization [39, -26, 5, 0, 2147483647, -2147483648] ⟨7, 7⟩).sum =
      sum_of_multiples [39, -26, 5, 0, 2147483647, -2147483648] :=
  (accumulators_never_overflow [39, -26, 5, 0, 2147483647, -2147483648] ⟨7, 7⟩ ⟨1, 2⟩ ⟨3, 4⟩
    2 [1, 0] [0, 1] 2 (fun _ => [true]) (by unfold AllInt INT_MIN INT_MAX; decide)
    (by decide) (by decide) (by decide) (by decide) (by decide)
    (fun _ => show [true].length < 2 by decide)).2.2.2.1

/-- C13: in `with_atomic`, with the `load` and each compare-exchange as atomic
steps on the shared minimum: a worker leaves the retry loop only by a
successful compare-exchange, which sets the shared minimum to its local
minimum, or because the shared value it observed last is not larger than its
local minimum; every step of every worker leaves the shared minimum unchanged or
strictly lowers it; so once a worker is past the loop the shared minimum is at
most its local minimum, then and after any further steps; and a worker that runs
without interference sets the shared minimum to the smaller of its old value and
the local minimum. -/
theorem atomic_min_retry_loop (local_min : Nat → Int) :
    (∀ (s : MinState) (w : Nat) (sp : Bool), s.phase w ≠ Phase.exited →
      (min_step local_min s w sp).phase w = Phase.exited →
      ∃ cur, s.phase w = Phase.in_loop cur ∧
        ((local_min w < cur ∧ s.shared_min = cur ∧ sp = false ∧
            (min_step local_min s w sp).shared_min = local_min w) ∨
          (¬ local_min w < cur ∧ (min_step local_min s w sp).shared_min = s.shared_min))) ∧
      (∀ (s : MinState) (w : Nat) (sp : Bool),
        (min_step local_min s w sp).shared_min = s.shared_min ∨
          (min_step local_min s w sp).shared_min < s.shared_min) ∧
      (∀ (m0 : Int) (sched more : List (Nat × Bool)) (w : Nat),
        (min_run local_min (min_init m0) sched).phase w = Phase.exited →
        (min_run local_min (min_init m0) (sched ++ more)).shared_min ≤ local_min w) ∧
      (∀ (s : MinState) (w : Nat) (b0 : Bool) (fl : List Bool),
        s.phase w = Phase.before_load →
        (min_run local_min s ((w, b0) :: (fl ++ [false]).map (fun b => (w, b)))).phase w =
            Phase.exited ∧
          (min_run local_min s ((w, b0) :: (fl ++ [false]).map (fun b => (w, b)))).shared_min =
            if local_min w < s.shared_min then local_min w else s.shared_min) ∧
      ∀ (w fuel : Nat) (spur : List Bool) (shared : Int), spur.length < fuel →
        cas_loop (local_min w) fuel spur shared shared =
          some (if local_min w < shared then local_min w else shared) := by
  refine ⟨min_step_exit local_min, min_step_shared local_min, ?_, ?_, ?_⟩
  · intro m0 sched more w hw
    have hsafe := min_safe_run local_min (min_init m0) sched (min_safe_init local_min m0)
    have h1 := hsafe.2 w hw
    rw [min_run_append]
    have h2 := min_run_shared_le local_min (min_run local_min (min_init m0) sched) more
    omega
  · intro s w b0 fl hph
    rw [min_run_cons]
    have hs1 : (min_step local_min s w b0).phase w =
        Phase.in_loop (min_step local_min s w b0).shared_min := by
      rw [min_step_before local_min s w b0 hph]
      exact set_at_same _ _ _
    have hsh : (min_step local_min s w b0).shared_min = s.shared_min := by
      rw [min_step_before local_min s w b0 hph]
    have := min_run_alone_in_loop local_min w fl (min_step local_min s w b0) hs1
    rw [hsh] at this
    exact this
  · intro w fuel spur shared h
    exact cas_loop_eq (local_min w) fuel spur shared h

theorem atomic_min_retry_loop_witness :
    (min_run racing_minima (min_init INT_MAX)
      ([(0, false), (1, false), (0, false), (1, false)] ++ [(2, false), (2, true)])).shared_min ≤
        racing_minima 0 :=
  (atomic_min_retry_loop racing_minima).2.2.1 INT_MAX
    [(0, false), (1, false), (0, false), (1, false)] [(2, false), (2, true)] 0 (by decide)

/-- C14, as stated, fails. On `[52, 39, 26, 13]` with four threads the local
minima are 52, 39, 26, 13; in the schedule `racing_schedule`, without any
spurious failure, every worker leaves the loop, there are 4 successful updates
and 6 retries: one update makes several workers retry. And a worker that runs
alone retries after a spurious failure of `compare_exchange_weak`, with no
update by another worker at all. -/
theorem retries_exceed_updates :
    (∀ i ∈ List.range 4, worker_local [52, 39, 26, 13] 4 i =
        some { sum := racing_minima i, min_multiple_of_13 := racing_minima i }) ∧
      (∀ p ∈ racing_schedule, p.1 < 4 ∧ p.2 = false) ∧
      (∀ i ∈ List.range 4,
        (min_run racing_minima (min_init INT_MAX) racing_schedule).phase i = Phase.exited) ∧
      (min_run racing_minima (min_init INT_MAX) racing_schedule).updates = 4 ∧
      total 4 (min_run racing_minima (min_init INT_MAX) racing_schedule).retries = 6 ∧
      ¬ (total 4 (min_run racing_minima (min_init INT_MAX) racing_schedule).retries ≤
        (min_run racing_minima (min_init INT_MAX) racing_schedule).updates) ∧
      (min_run (fun _ => 13) (min_init INT_MAX) [(0, false), (0, true), (0, false)]).retries 0 =
        1 ∧
      (min_run (fun _ => 13) (min_init INT_MAX) [(0, false), (0, true), (0, false)]).updates -
        (min_run (fun _ => 13) (min_init INT_MAX)
          [(0, false), (0, true), (0, false)]).successes 0 = 0 := by
  refine ⟨by decide, by decide, by decide, by decide, by decide, by decide, by decide,
    by decide⟩

/-- C14 (amended): in any run of the compare-and-swap loops of the workers
`0 .. T - 1`, every retry of a worker that is not a spurious failure of
`compare_exchange_weak` answers a successful update of the shared minimum by
another worker: the retries of a worker number at most the successful updates by
the other workers plus its spurious failures. Every worker updates at most once,
so a worker retries at most `T - 1` times apart from spurious failures, and the
retries of all workers together number at most `T - 1` times the successful
updates plus the spurious failures. Progress is guaranteed: a worker that has
taken more than `T` steps, not counting those at which its compare-exchange may
fail spuriously, has left the loop. -/
theorem retries_bounded (local_min : Nat → Int) (T : Nat) (m0 : Int)
    (sched : List (Nat × Bool)) (hs : ∀ p ∈ sched, p.1 < T) :
    (∀ w cur, (min_run local_min (min_init m0) sched).phase w = Phase.in_loop cur →
        cur ≠ (min_run local_min (min_init m0) sched).shared_min →
        (min_run local_min (min_init m0) sched).retries w +
            (min_run local_min (min_init m0) sched).successes w + 1 ≤
          (min_run local_min (min_init m0) sched).updates +
            (min_run local_min (min_init m0) sched).spurious w) ∧
      (∀ w, (min_run local_min (min_init m0) sched).retries w +
          (min_run local_min (min_init m0) sched).successes w ≤
        (min_run local_min (min_init m0) sched).updates +
          (min_run local_min (min_init m0) sched).spurious w) ∧
      (∀ w, (min_run local_min (min_init m0) sched).successes w ≤ 1) ∧
      (min_run local_min (min_init m0) sched).updates =
        total T (min_run local_min (min_init m0) sched).successes ∧
      (min_run local_min (min_init m0) sched).updates ≤ T ∧
      (∀ w, w < T → (min_run local_min (min_init m0) sched).retries w ≤
        (T - 1) + (min_run local_min (min_init m0) sched).spurious w) ∧
      total T (min_run local_min (min_init m0) sched).retries ≤
        (T - 1) * (min_run local_min (min_init m0) sched).updates +
          total T (min_run local_min (min_init m0) sched).spurious ∧
      (∀ w, (min_run local_min (min_init m0) sched).spurious w ≤ spurious_steps_of w sched) ∧
      ∀ w, w < T → T + spurious_steps_of w sched < steps_of w sched →
        (min_run local_min (min_init m0) sched).phase w = Phase.exited := by
  obtain ⟨⟨i1, i2, i3, i4, i5⟩, k1, k2, k3⟩ := min_run_invariants local_min T m0 sched hs
  generalize min_run local_min (min_init m0) sched = s at i1 i2 i3 i4 i5 k1 k2 k3 ⊢
  have hper : ∀ w, w < T → s.retries w ≤ (T - 1) + s.spurious w := by
    intro w hw
    have h1 := i1 w
    have h2 := total_le_others T s.successes i4 w hw
    omega
  refine ⟨?_, i1, i4, i5, ?_, hper, ?_, k3, ?_⟩
  · intro w cur hph hne
    have hs0 := i3 w (by rw [hph]; simp)
    rcases i2 w cur hph with h | h
    · exact absurd h hne
    · omega
  · rw [i5]
    exact total_le_card T s.successes i4
  · have hsum := total_le T (fun w => s.retries w + s.successes w)
      (fun w => s.updates + s.spurious w) (fun w _ => i1 w)
    rw [total_add, total_add, total_const, ← i5] at hsum
    cases T with
    | zero =>
      rw [total_zero, total_zero]
      omega
    | succ n =>
      rw [Nat.add_sub_cancel]
      rw [Nat.succ_mul] at hsum
      omega
  · intro w hw hlt
    cases hph : s.phase w with
    | exited => rfl
    | before_load =>
      have := (k1 w hph).1
      omega
    | in_loop cur =>
      have h1 := k2 w cur hph
      have h2 := hper w hw
      have h3 := k3 w
      omega

theorem retries_bounded_witness :
    total 4 (min_run racing_minima (min_init INT_MAX) racing_schedule).retries ≤
      (4 - 1) * (min_run racing_minima (min_init INT_MAX) racing_schedule).updates +
        total 4 (min_run racing_minima (min_init INT_MAX) racing_schedule).spurious :=
  (retries_bounded racing_minima 4 INT_MAX racing_schedule (by decide)).2.2.2.2.2.2.1

end Lab2
